import Mathlib

/-!
Verification of the configuration, context-assembly and presentation logic of
a small command-line tool (`shai.py`).  Python dictionaries holding TOML
configuration data are embedded as association lists over an inductive value
type; the nested-key operations, the precedence resolver, the TOML
writer/loader and the query-path presentation logic are translated function
by function from the source.
-/

set_option maxRecDepth 4000

namespace Shai

/-- A Python value as it occurs in a configuration dictionary: a string, a
boolean, an integer, or a nested dictionary.  Dictionaries are association
lists in insertion order, mirroring Python dict ordering. -/
inductive Value where
  | vStr : String → Value
  | vBool : Bool → Value
  | vInt : Int → Value
  | vDict : List (String × Value) → Value

/-- A configuration mapping (Python `dict`), in insertion order. -/
abbrev ConfigMap := List (String × Value)

/-- Dictionary lookup (`d[k]` / `d.get(k)`): first binding of the key. -/
def alGet : ConfigMap → String → Option Value
  | [], _ => none
  | (k', v) :: rest, k => if k' = k then some v else alGet rest k

/-- Membership test (`k in d`). -/
def alHas (m : ConfigMap) (k : String) : Bool :=
  (alGet m k).isSome

/-- Dictionary assignment (`d[k] = v`): replaces the existing binding in
place, otherwise appends at the end — Python dict insertion-order
semantics. -/
def alSet : ConfigMap → String → Value → ConfigMap
  | [], k, v => [(k, v)]
  | (k', v') :: rest, k, v =>
    if k' = k then (k, v) :: rest else (k', v') :: alSet rest k v

/-- Dictionary deletion (`del d[k]`): removes the binding of the key. -/
def alDel : ConfigMap → String → ConfigMap
  | [], _ => []
  | (k', v') :: rest, k =>
    if k' = k then rest else (k', v') :: alDel rest k

/-- Splitting a character list at every occurrence of a separator character;
models Python `str.split(sep)` for a one-character separator (and the line
splitting that `tomllib` performs on the file contents).  Always returns a
nonempty list; `[]` splits to `[[]]`. -/
def splitChar (sep : Char) : List Char → List (List Char)
  | [] => [[]]
  | c :: cs =>
    if c = sep then [] :: splitChar sep cs
    else
      match splitChar sep cs with
      | [] => [[c]]
      | l :: ls => (c :: l) :: ls

/-- `key.split(".")` — the dotted-key path segments. -/
def keyParts (key : String) : List String :=
  (splitChar '.' key.data).map String.mk

/-- Recursive worker for `get_nested`: Python starts from the whole dict and
walks one path segment at a time, descending only through dictionaries;
a missing key or a non-dict intermediate yields the default (`none`). -/
def get_nested_value : Value → List String → Option Value
  | v, [] => some v
  | Value.vDict m, p :: ps =>
    match alGet m p with
    | some v => get_nested_value v ps
    | none => none
  | _, _ :: _ => none

/-- `get_nested(config, key)` with the default `None` modelled as `none`. -/
def get_nested (config : ConfigMap) (key : String) : Option Value :=
  get_nested_value (Value.vDict config) (keyParts key)

/-- Worker for `set_nested` on the split path.  Python walks `parts[:-1]`,
creating empty dicts for missing segments, and assigns at the last segment.
If an intermediate segment holds a non-dict value the Python code raises
`TypeError` (membership test / item assignment on a non-dict); that failure
is modelled as `none`.  An empty path (unreachable from `split`) raises
`IndexError` on `parts[-1]`, also `none`. -/
def set_nested_go : ConfigMap → List String → Value → Option ConfigMap
  | _, [], _ => none
  | m, [last], v => some (alSet m last v)
  | m, p :: ps₁ :: ps₂, v =>
    match alGet m p with
    | none =>
      (set_nested_go [] (ps₁ :: ps₂) v).map (fun d => alSet m p (Value.vDict d))
    | some (Value.vDict d) =>
      (set_nested_go d (ps₁ :: ps₂) v).map (fun d' => alSet m p (Value.vDict d'))
    | some _ => none

/-- `set_nested(config, key, value)`; `none` models the `TypeError` raised
when an intermediate path segment holds a scalar. -/
def set_nested (config : ConfigMap) (key : String) (value : Value) :
    Option ConfigMap :=
  set_nested_go config (keyParts key) value

/-- Does the needle start the haystack?  (Character-list prefix test.) -/
def startsWithChars : List Char → List Char → Bool
  | [], _ => true
  | _ :: _, [] => false
  | a :: as, b :: bs => a = b && startsWithChars as bs

/-- Contiguous-substring test on character lists; the empty needle is a
substring of everything. -/
def containsChars : List Char → List Char → Bool
  | [], needle => needle.isEmpty
  | h :: rest, needle =>
    startsWithChars needle (h :: rest) || containsChars rest needle

/-- Python's `needle in haystack` on two strings: substring containment. -/
def pyInStr (needle haystack : String) : Bool :=
  containsChars haystack.data needle.data

/-- Worker for `unset_nested` on the split path.  Returns the Python return
value together with the resulting map; `none` models a raised `TypeError`.
An int or bool intermediate raises at the membership test.  A string
intermediate does not: Python's `in` on a `str` is a substring test, so
when the following path segment is not a substring the function returns
`False` with the map unchanged — whether at `part not in target` in the
loop or at the final `parts[-1] in target` — and when it is a substring
the very next operation (`target[part]` string indexing, or
`del target[parts[-1]]` item deletion) raises `TypeError`. -/
def unset_nested_go : ConfigMap → List String → Option (Bool × ConfigMap)
  | _, [] => none
  | m, [last] =>
    if alHas m last then some (true, alDel m last) else some (false, m)
  | m, p :: ps₁ :: ps₂ =>
    match alGet m p with
    | none => some (false, m)
    | some (Value.vDict d) =>
      (unset_nested_go d (ps₁ :: ps₂)).map
        (fun r => (r.1, alSet m p (Value.vDict r.2)))
    | some (Value.vStr s) =>
      if pyInStr ps₁ s then none else some (false, m)
    | some _ => none

/-- `unset_nested(config, key) -> bool` (plus the updated map). -/
def unset_nested (config : ConfigMap) (key : String) :
    Option (Bool × ConfigMap) :=
  unset_nested_go config (keyParts key)

/-- Number of bindings of a key in an association list.  A list that embeds a
real Python dict always has key count at most one. -/
def keyCount : ConfigMap → String → Nat
  | [], _ => 0
  | (k', _) :: rest, k => (if k' = k then 1 else 0) + keyCount rest k

/-- The Python-dict invariant (each key bound at most once), restricted to
the dictionaries traversed by a dotted path: the final path segment is bound
at most once in the dictionary reached by the leading segments. -/
def path_keys_unique : ConfigMap → List String → Bool
  | _, [] => true
  | m, [last] => decide (keyCount m last ≤ 1)
  | m, p :: ps₁ :: ps₂ =>
    match alGet m p with
    | some (Value.vDict d) => path_keys_unique d (ps₁ :: ps₂)
    | _ => true

/-- Python truthiness (`if value:`) of a configuration value. -/
def pyTruthy : Value → Bool
  | Value.vStr s => s ≠ ""
  | Value.vBool b => b
  | Value.vInt n => n ≠ 0
  | Value.vDict m => !m.isEmpty

/-- `resolve_config_value(key, cli_value, env_var, config, default)`.
The process environment is passed explicitly as a total function where the
empty string stands for an unset (or set-but-empty) variable; both are falsy
in `os.environ.get(env_var)` and behave identically in this function.
Priority: CLI > env > config file > default, tagged with the source name. -/
def resolve_config_value (key : String) (cli_value : Option Value)
    (env_var : Option String) (env : String → String)
    (config : ConfigMap) (default : Value) : Value × String :=
  let fromFile : Value × String :=
    match get_nested config key with
    | some v => (v, "config")
    | none => (default, "default")
  match cli_value with
  | some v => (v, "cli")
  | none =>
    match env_var with
    | some ev =>
      if ev ≠ "" ∧ env ev ≠ "" then (Value.vStr (env ev), "env")
      else fromFile
    | none => fromFile

/-- The CLI value passed for `quiet` in `main`:
`args.quiet if args.quiet else None` turns the `False` sentinel of the
store-true flag into `None`. -/
def quiet_cli_value (quiet_flag : Bool) : Option Value :=
  if quiet_flag then some (Value.vBool true) else none

/-- One step of a multi-step command breakdown. -/
structure Step where
  command : String
  explanation : String

/-- The schema-constrained model response. -/
structure CommandResponse where
  command : String
  explanation : String
  steps : List Step
  is_destructive : Bool
  danger_reason : String

def EXIT_SUCCESS : Nat := 0
def EXIT_ERROR : Nat := 1
def EXIT_DESTRUCTIVE : Nat := 2

def COLOR_WARNING : String := "yellow"

/-- The markup-wrapped line emitted by `print_warning(msg)`. -/
def print_warning_line (msg : String) : String :=
  "[" ++ COLOR_WARNING ++ "]" ++ msg ++ "[/" ++ COLOR_WARNING ++ "]"

/-- The stderr lines emitted by `print_danger_warning(result)`. -/
def print_danger_warning_lines (result : CommandResponse) : List String :=
  if result.is_destructive then
    [print_warning_line ("⚠️  " ++ result.danger_reason)]
  else []

/-- `get_exit_code(result)`. -/
def get_exit_code (result : CommandResponse) : Nat :=
  if result.is_destructive then EXIT_DESTRUCTIVE else EXIT_SUCCESS

/-- Observable outcome of the success path of the query branch of `main`
(lines 409–413): explanation unless quiet is truthy, danger warning,
the bare command on stdout, and the exit code. -/
structure QueryOutcome where
  stdoutLines : List String
  explanationShown : Bool
  warningLines : List String
  exitCode : Nat

/-- The success path of `main`'s try block as a pure function of the parsed
response and the resolved `quiet` value. -/
def query_success_outcome (result : CommandResponse) (quiet : Value) :
    QueryOutcome :=
  { stdoutLines := [result.command]
    explanationShown := !(pyTruthy quiet)
    warningLines := print_danger_warning_lines result
    exitCode := get_exit_code result }

end Shai

namespace Shai

/-- C1: with a CLI sentinel absent, an environment variable name given, and
a key present in the config map, `resolve_config_value` returns the config
value with source `config`; if additionally the environment variable is
non-empty it returns the raw environment value with source `env`; a non-null
CLI value beats both with source `cli`; and with all layers absent the
built-in default is returned with source `default`. -/
theorem resolve_precedence_strict (key env_name : String)
    (env : String → String) (config : ConfigMap) (dflt v cliv : Value) :
    (get_nested config key = some v → env env_name = "" →
      resolve_config_value key none (some env_name) env config dflt
        = (v, "config")) ∧
    (env_name ≠ "" → env env_name ≠ "" →
      resolve_config_value key none (some env_name) env config dflt
        = (Value.vStr (env env_name), "env")) ∧
    (resolve_config_value key (some cliv) (some env_name) env config dflt
        = (cliv, "cli")) ∧
    (get_nested config key = none → env env_name = "" →
      resolve_config_value key none (some env_name) env config dflt
        = (dflt, "default")) := by
  refine ⟨?_, ?_, ?_, ?_⟩
  · intro hget henv
    simp [resolve_config_value, henv, hget]
  · intro hname henv
    simp [resolve_config_value, hname, henv]
  · rfl
  · intro hget henv
    simp [resolve_config_value, henv, hget]

/-- Witness for C1 at concrete inputs: a config-only key, an environment
override, a CLI override, and the all-absent default case. -/
theorem resolve_precedence_strict_witness :
    (resolve_config_value "model" none (some "SHAI_MODEL") (fun _ => "")
        [("model", Value.vStr "from-file")] (Value.vStr "dflt")
      = (Value.vStr "from-file", "config")) ∧
    (resolve_config_value "model" none (some "SHAI_MODEL")
        (fun n => if n = "SHAI_MODEL" then "from-env" else "")
        [("model", Value.vStr "from-file")] (Value.vStr "dflt")
      = (Value.vStr "from-env", "env")) ∧
    (resolve_config_value "model" (some (Value.vStr "from-cli"))
        (some "SHAI_MODEL")
        (fun n => if n = "SHAI_MODEL" then "from-env" else "")
        [("model", Value.vStr "from-file")] (Value.vStr "dflt")
      = (Value.vStr "from-cli", "cli")) ∧
    (resolve_config_value "model" none (some "SHAI_MODEL") (fun _ => "")
        [] (Value.vStr "dflt")
      = (Value.vStr "dflt", "default")) := by
  refine ⟨?_, ?_, ?_, ?_⟩
  · exact (resolve_precedence_strict "model" "SHAI_MODEL" (fun _ => "")
      [("model", Value.vStr "from-file")] (Value.vStr "dflt")
      (Value.vStr "from-file") (Value.vStr "from-cli")).1 rfl rfl
  · exact (resolve_precedence_strict "model" "SHAI_MODEL"
      (fun n => if n = "SHAI_MODEL" then "from-env" else "")
      [("model", Value.vStr "from-file")] (Value.vStr "dflt")
      (Value.vStr "from-file") (Value.vStr "from-cli")).2.1
      (by decide) (by simp)
  · exact (resolve_precedence_strict "model" "SHAI_MODEL"
      (fun n => if n = "SHAI_MODEL" then "from-env" else "")
      [("model", Value.vStr "from-file")] (Value.vStr "dflt")
      (Value.vStr "from-file") (Value.vStr "from-cli")).2.2.1
  · exact (resolve_precedence_strict "model" "SHAI_MODEL" (fun _ => "")
      [] (Value.vStr "dflt")
      (Value.vStr "from-file") (Value.vStr "from-cli")).2.2.2 rfl rfl

/-- C7: whenever a non-null CLI value is supplied, `resolve_config_value`
returns it with source `cli`, whatever the environment, config map and
default; in `main` the false sentinel of the quiet flag is converted to
`None` first, so a set quiet flag arrives as a non-null CLI value. -/
theorem resolve_cli_value_wins (key : String) (cliv : Value)
    (env_var : Option String) (env : String → String)
    (config : ConfigMap) (dflt : Value) :
    resolve_config_value key (some cliv) env_var env config dflt
      = (cliv, "cli") ∧
    quiet_cli_value true = some (Value.vBool true) ∧
    quiet_cli_value false = none ∧
    resolve_config_value "quiet" (quiet_cli_value true) env_var env config dflt
      = (Value.vBool true, "cli") := by
  refine ⟨rfl, rfl, rfl, ?_⟩
  show resolve_config_value "quiet" (some (Value.vBool true)) _ _ _ _ = _
  rfl

/-- C2: on a successfully parsed response, the query path writes the bare
command to stdout; a non-destructive response exits with code `0` and prints
no warning line; a destructive one exits with code `2` and prints one
warning line containing the danger reason. -/
theorem query_outcome_exit_and_warning (result : CommandResponse)
    (quiet : Value) :
    ((query_success_outcome result quiet).stdoutLines = [result.command]) ∧
    (result.is_destructive = false →
      (query_success_outcome result quiet).exitCode = 0 ∧
      (query_success_outcome result quiet).warningLines = []) ∧
    (result.is_destructive = true →
      (query_success_outcome result quiet).exitCode = 2 ∧
      ∃ pre post : String,
        (query_success_outcome result quiet).warningLines
          = [pre ++ result.danger_reason ++ post]) := by
  refine ⟨rfl, ?_, ?_⟩
  · intro h
    constructor
    · simp [query_success_outcome, get_exit_code, h, EXIT_SUCCESS]
    · simp [query_success_outcome, print_danger_warning_lines, h]
  · intro h
    constructor
    · simp [query_success_outcome, get_exit_code, h, EXIT_DESTRUCTIVE]
    · refine ⟨"[" ++ COLOR_WARNING ++ "]" ++ "⚠️  ",
        "[/" ++ COLOR_WARNING ++ "]", ?_⟩
      have hl : (query_success_outcome result quiet).warningLines
          = [print_warning_line ("⚠️  " ++ result.danger_reason)] := by
        simp [query_success_outcome, print_danger_warning_lines, h]
      rw [hl]
      refine congrArg (fun s => [s]) ?_
      apply String.ext
      simp [print_warning_line, String.data_append, List.append_assoc]

/-- Witness for C2 at two concrete responses, one destructive and one not. -/
theorem query_outcome_exit_and_warning_witness :
    ((query_success_outcome
        ⟨"ls", "list", [], false, ""⟩ (Value.vBool false)).exitCode = 0 ∧
      (query_success_outcome
        ⟨"ls", "list", [], false, ""⟩ (Value.vBool false)).warningLines = []) ∧
    ((query_success_outcome
        ⟨"rm -rf /tmp/x", "remove", [], true, "deletes files"⟩
        (Value.vBool false)).exitCode = 2 ∧
      ∃ pre post : String,
        (query_success_outcome
          ⟨"rm -rf /tmp/x", "remove", [], true, "deletes files"⟩
          (Value.vBool false)).warningLines
            = [pre ++ "deletes files" ++ post]) := by
  constructor
  · exact (query_outcome_exit_and_warning
      ⟨"ls", "list", [], false, ""⟩ (Value.vBool false)).2.1 rfl
  · exact (query_outcome_exit_and_warning
      ⟨"rm -rf /tmp/x", "remove", [], true, "deletes files"⟩
      (Value.vBool false)).2.2 rfl

/-- C10: a setting resolved through the environment layer comes back as the
raw environment string with source `env`, regardless of the type of the
default; a non-empty string is truthy in Python, so any non-empty value of a
boolean override variable — including the string `false` — enables the
corresponding flag; in the query path the explanation is then suppressed. -/
theorem resolve_env_raw_string_truthy (key env_name : String)
    (env : String → String) (config : ConfigMap) (dflt : Value)
    (hname : env_name ≠ "") (hval : env env_name ≠ "") :
    resolve_config_value key none (some env_name) env config dflt
      = (Value.vStr (env env_name), "env") ∧
    pyTruthy (Value.vStr (env env_name)) = true ∧
    ∀ result : CommandResponse,
      (query_success_outcome result
        (Value.vStr (env env_name))).explanationShown = false := by
  refine ⟨?_, ?_, ?_⟩
  · simp [resolve_config_value, hname, hval]
  · simp [pyTruthy, hval]
  · intro result
    simp [query_success_outcome, pyTruthy, hval]

/-- Witness for C10: `SHAI_QUIET=false` resolves to the truthy string
`"false"` with source `env` even though the default is the boolean `False`,
and suppresses the explanation. -/
theorem resolve_env_raw_string_truthy_witness :
    resolve_config_value "quiet" none (some "SHAI_QUIET")
      (fun n => if n = "SHAI_QUIET" then "false" else "")
      [] (Value.vBool false)
      = (Value.vStr "false", "env") ∧
    pyTruthy (Value.vStr "false") = true ∧
    (query_success_outcome ⟨"ls", "list", [], false, ""⟩
      (Value.vStr "false")).explanationShown = false := by
  have h := resolve_env_raw_string_truthy "quiet" "SHAI_QUIET"
    (fun n => if n = "SHAI_QUIET" then "false" else "")
    [] (Value.vBool false) (by decide) (by simp)
  exact ⟨h.1, h.2.1, h.2.2 ⟨"ls", "list", [], false, ""⟩⟩

theorem splitChar_ne_nil (sep : Char) (cs : List Char) :
    splitChar sep cs ≠ [] := by
  induction cs with
  | nil => simp [splitChar]
  | cons c cs ih =>
    rw [splitChar]
    by_cases hc : c = sep
    · simp [hc]
    · rw [if_neg hc]
      rcases h : splitChar sep cs with _ | ⟨l, ls⟩
      · simp
      · simp

theorem keyParts_ne_nil (key : String) : keyParts key ≠ [] := by
  unfold keyParts
  intro h
  rw [List.map_eq_nil_iff] at h
  exact splitChar_ne_nil '.' key.data h

theorem alGet_alSet_self (m : ConfigMap) (k : String) (v : Value) :
    alGet (alSet m k v) k = some v := by
  induction m with
  | nil => simp [alSet, alGet]
  | cons hd tl ih =>
    obtain ⟨k', v'⟩ := hd
    by_cases h : k' = k <;> simp [alSet, alGet, h, ih]

theorem alSet_of_alGet (m : ConfigMap) (k : String) (v : Value)
    (h : alGet m k = some v) : alSet m k v = m := by
  induction m with
  | nil => simp [alGet] at h
  | cons hd tl ih =>
    obtain ⟨k', v'⟩ := hd
    by_cases hk : k' = k
    · subst hk
      simp [alGet] at h
      simp [alSet, h]
    · simp [alGet, hk] at h
      simp [alSet, hk, ih h]

theorem alGet_of_keyCount_zero (m : ConfigMap) (k : String)
    (h : keyCount m k = 0) : alGet m k = none := by
  induction m with
  | nil => rfl
  | cons hd tl ih =>
    obtain ⟨k', v'⟩ := hd
    by_cases hk : k' = k
    · simp [keyCount, hk] at h
    · simp [keyCount, hk] at h
      simp [alGet, hk, ih h]

theorem alGet_alDel_self (m : ConfigMap) (k : String)
    (h : keyCount m k ≤ 1) : alGet (alDel m k) k = none := by
  induction m with
  | nil => rfl
  | cons hd tl ih =>
    obtain ⟨k', v'⟩ := hd
    by_cases hk : k' = k
    · simp [keyCount, hk] at h
      simp [alDel, hk]
      exact alGet_of_keyCount_zero tl k h
    · simp [keyCount, hk] at h
      simp [alDel, alGet, hk]
      exact ih h

theorem set_get_go (parts : List String) (m : ConfigMap) (v : Value)
    (c' : ConfigMap) (h : set_nested_go m parts v = some c') :
    get_nested_value (Value.vDict c') parts = some v := by
  match parts with
  | [] => simp [set_nested_go] at h
  | [last] =>
    simp [set_nested_go] at h
    subst h
    simp [get_nested_value, alGet_alSet_self]
  | p :: ps₁ :: ps₂ =>
    simp only [set_nested_go] at h
    cases hg : alGet m p with
    | none =>
      rw [hg] at h
      have h' : Option.map (fun d => alSet m p (Value.vDict d))
          (set_nested_go [] (ps₁ :: ps₂) v) = some c' := h
      cases hrec : set_nested_go [] (ps₁ :: ps₂) v with
      | none => rw [hrec] at h'; simp at h'
      | some d =>
        rw [hrec] at h'
        simp at h'
        subst h'
        have ih := set_get_go (ps₁ :: ps₂) [] v d hrec
        simp only [get_nested_value]
        rw [alGet_alSet_self]
        exact ih
    | some x =>
      rw [hg] at h
      cases x with
      | vDict d =>
        have h' : Option.map (fun d' => alSet m p (Value.vDict d'))
            (set_nested_go d (ps₁ :: ps₂) v) = some c' := h
        cases hrec : set_nested_go d (ps₁ :: ps₂) v with
        | none => rw [hrec] at h'; simp at h'
        | some d' =>
          rw [hrec] at h'
          simp at h'
          subst h'
          have ih := set_get_go (ps₁ :: ps₂) d v d' hrec
          simp only [get_nested_value]
          rw [alGet_alSet_self]
          exact ih
      | vStr s => simp at h
      | vBool b => simp at h
      | vInt n => simp at h

/-- C4 (amended): whenever `set_nested` succeeds — i.e. no intermediate path
segment is bound to a scalar, so Python raises no `TypeError` — a subsequent
`get_nested` on the same dotted key returns the value just set, for
arbitrary nesting depth. -/
theorem set_nested_then_get_nested (config : ConfigMap) (key : String)
    (value : Value) (config' : ConfigMap)
    (h : set_nested config key value = some config') :
    get_nested config' key = some value :=
  set_get_go (keyParts key) config value config' h

/-- Witness for C4 (amended): setting `session.enabled` in an empty map
creates the section and `get_nested` reads the value back. -/
theorem set_nested_then_get_nested_witness :
    set_nested [] "session.enabled" (Value.vBool true)
      = some [("session", Value.vDict [("enabled", Value.vBool true)])] ∧
    get_nested [("session", Value.vDict [("enabled", Value.vBool true)])]
      "session.enabled" = some (Value.vBool true) :=
  ⟨rfl, set_nested_then_get_nested [] "session.enabled" (Value.vBool true)
    [("session", Value.vDict [("enabled", Value.vBool true)])] rfl⟩

/-- Counterexample to C4 as stated: on the map `{"a": 1}` and key `"a.b"`,
`set_nested` walks into the scalar bound to `"a"` and raises `TypeError`
(modelled as `none`), so no set-then-get round trip exists. -/
theorem set_nested_scalar_blocked :
    set_nested [("a", Value.vInt 1)] "a.b" (Value.vStr "x") = none ∧
    ¬ ∃ config',
      set_nested [("a", Value.vInt 1)] "a.b" (Value.vStr "x")
        = some config' ∧
      get_nested config' "a.b" = some (Value.vStr "x") := by
  refine ⟨rfl, ?_⟩
  rintro ⟨c', hc, -⟩
  have hnone : (none : Option ConfigMap) = some c' := hc
  exact Option.noConfusion hnone

theorem unset_absent_go (parts : List String) (m : ConfigMap)
    (hget : get_nested_value (Value.vDict m) parts = none)
    (r : Bool × ConfigMap) (h : unset_nested_go m parts = some r) :
    r = (false, m) := by
  match parts with
  | [] => simp [get_nested_value] at hget
  | [last] =>
    cases hg : alGet m last with
    | some v => simp [get_nested_value, hg] at hget
    | none =>
      have hh : alHas m last = false := by simp [alHas, hg]
      simp only [unset_nested_go, hh] at h
      simp at h
      exact h.symm
  | p :: ps₁ :: ps₂ =>
    simp only [unset_nested_go] at h
    simp only [get_nested_value] at hget
    cases hg : alGet m p with
    | none =>
      rw [hg] at h
      simp at h
      exact h.symm
    | some x =>
      rw [hg] at h
      rw [hg] at hget
      cases x with
      | vDict d =>
        have h' : Option.map (fun r => (r.1, alSet m p (Value.vDict r.2)))
            (unset_nested_go d (ps₁ :: ps₂)) = some r := h
        have hget' : get_nested_value (Value.vDict d) (ps₁ :: ps₂) = none :=
          hget
        cases hrec : unset_nested_go d (ps₁ :: ps₂) with
        | none => rw [hrec] at h'; simp at h'
        | some r' =>
          rw [hrec] at h'
          simp at h'
          have ih := unset_absent_go (ps₁ :: ps₂) d hget' r' hrec
          rw [ih] at h'
          rw [← h']
          show (false, alSet m p (Value.vDict d)) = (false, m)
          rw [alSet_of_alGet m p (Value.vDict d) hg]
      | vStr s =>
        have h' : (if pyInStr ps₁ s then none else some (false, m))
            = some r := h
        by_cases hin : pyInStr ps₁ s = true
        · rw [if_pos hin] at h'
          simp at h'
        · rw [if_neg hin] at h'
          simp at h'
          exact h'.symm
      | vBool b => simp at h
      | vInt n => simp at h

theorem unset_present_go (parts : List String) (m : ConfigMap) (v : Value)
    (hne : parts ≠ [])
    (hu : path_keys_unique m parts = true)
    (hget : get_nested_value (Value.vDict m) parts = some v) :
    ∃ m', unset_nested_go m parts = some (true, m') ∧
      get_nested_value (Value.vDict m') parts = none := by
  match parts with
  | [] => exact absurd rfl hne
  | [last] =>
    cases hg : alGet m last with
    | none => simp [get_nested_value, hg] at hget
    | some w =>
      have hh : alHas m last = true := by simp [alHas, hg]
      refine ⟨alDel m last, ?_, ?_⟩
      · simp only [unset_nested_go, hh]
        simp
      · have hcnt : keyCount m last ≤ 1 := by
          simp only [path_keys_unique] at hu
          exact of_decide_eq_true hu
        simp [get_nested_value, alGet_alDel_self m last hcnt]
  | p :: ps₁ :: ps₂ =>
    simp only [get_nested_value] at hget
    simp only [path_keys_unique] at hu
    cases hg : alGet m p with
    | none => rw [hg] at hget; exact absurd hget (by simp)
    | some x =>
      rw [hg] at hget
      rw [hg] at hu
      cases x with
      | vDict d =>
        have hget' : get_nested_value (Value.vDict d) (ps₁ :: ps₂) = some v :=
          hget
        have hu' : path_keys_unique d (ps₁ :: ps₂) = true := hu
        obtain ⟨d', hd₁, hd₂⟩ :=
          unset_present_go (ps₁ :: ps₂) d v (by simp) hu' hget'
        refine ⟨alSet m p (Value.vDict d'), ?_, ?_⟩
        · simp only [unset_nested_go]
          rw [hg]
          show Option.map (fun r => (r.1, alSet m p (Value.vDict r.2)))
              (unset_nested_go d (ps₁ :: ps₂))
            = some (true, alSet m p (Value.vDict d'))
          rw [hd₁]
          rfl
        · simp only [get_nested_value]
          rw [alGet_alSet_self]
          exact hd₂
      | vStr s => simp [get_nested_value] at hget
      | vBool b => simp [get_nested_value] at hget
      | vInt n => simp [get_nested_value] at hget

/-- C5 (amended): on a map obeying the Python-dict key-uniqueness invariant
along the dotted path, whenever `unset_nested` does not raise: on an absent
key it returns `False` with the map unchanged (this includes a string
intermediate that does not contain the next path segment as a substring,
where Python's `in` answers `False` without raising), and on a present key
it returns `True` and a subsequent `get_nested` returns the default
sentinel (`none`).  When an intermediate path segment is bound to an int or
bool, or to a string containing the next segment as a substring, the Python
code instead raises `TypeError` (modelled as `none`), even though the key
is absent. -/
theorem unset_nested_spec (config : ConfigMap) (key : String)
    (hu : path_keys_unique config (keyParts key) = true) :
    (get_nested config key = none →
      ∀ r, unset_nested config key = some r → r = (false, config)) ∧
    (∀ v, get_nested config key = some v →
      ∃ config', unset_nested config key = some (true, config') ∧
        get_nested config' key = none) := by
  constructor
  · intro hget r h
    exact unset_absent_go (keyParts key) config hget r h
  · intro v hget
    exact unset_present_go (keyParts key) config v (keyParts_ne_nil key)
      hu hget

/-- Witness for C5 (amended): at a present key, unsetting `session.enabled`
returns `True` and the key reads back as absent; at a key absent through a
string intermediate that does not contain the next segment
(`{"a": "xyz"}` with `"a.b"`), Python's substring `in` answers `False`
without raising and the map is unchanged. -/
theorem unset_nested_spec_witness :
    (path_keys_unique
        [("session", Value.vDict [("enabled", Value.vBool true)])]
        (keyParts "session.enabled") = true ∧
      ∃ config',
        unset_nested
          [("session", Value.vDict [("enabled", Value.vBool true)])]
          "session.enabled" = some (true, config') ∧
        get_nested config' "session.enabled" = none) ∧
    (get_nested [("a", Value.vStr "xyz")] "a.b" = none ∧
      unset_nested [("a", Value.vStr "xyz")] "a.b"
        = some (false, [("a", Value.vStr "xyz")]) ∧
      (false, [("a", Value.vStr "xyz")])
        = (false, [("a", Value.vStr "xyz")])) :=
  ⟨⟨rfl,
    (unset_nested_spec
      [("session", Value.vDict [("enabled", Value.vBool true)])]
      "session.enabled" rfl).2 (Value.vBool true) rfl⟩,
    rfl, rfl,
    (unset_nested_spec [("a", Value.vStr "xyz")] "a.b" rfl).1 rfl
      (false, [("a", Value.vStr "xyz")]) rfl⟩

/-- Counterexample to C5 as stated: on the map `{"a": 1}` and key `"a.b"`
the key is absent (`get_nested` yields the sentinel), yet `unset_nested`
does not return `False` — the membership test on the int raises `TypeError`
(modelled as `none`).  Likewise on `{"a": "bc"}` with `"a.b"`: `"b" in
"bc"` is a true substring test, so `del` is attempted on the string and
raises. -/
theorem unset_nested_scalar_blocked :
    get_nested [("a", Value.vInt 1)] "a.b" = none ∧
    unset_nested [("a", Value.vInt 1)] "a.b" = none ∧
    (get_nested [("a", Value.vStr "bc")] "a.b" = none ∧
      unset_nested [("a", Value.vStr "bc")] "a.b" = none) ∧
    ¬ ∃ m', unset_nested [("a", Value.vInt 1)] "a.b" = some (false, m') := by
  refine ⟨rfl, rfl, ⟨rfl, rfl⟩, ?_⟩
  rintro ⟨m', hm⟩
  have hnone : (none : Option (Bool × ConfigMap)) = some (false, m') := hm
  exact Option.noConfusion hnone

/-- Python whitespace characters, as stripped by `str.strip()`:
space, tab, newline, carriage return, vertical tab, form feed. -/
def isPyWS (c : Char) : Bool :=
  c.toNat = 32 || c.toNat = 9 || c.toNat = 10 || c.toNat = 13 ||
    c.toNat = 11 || c.toNat = 12

/-- Python `str.strip()` (no arguments): removes leading and trailing
whitespace. -/
def pyStrip (s : String) : String :=
  String.mk (((s.data.dropWhile isPyWS).reverse.dropWhile isPyWS).reverse)

/-- Python `sep.join(parts)`. -/
def pyJoin (sep : String) : List String → String
  | [] => ""
  | [x] => x
  | x :: y :: xs => x ++ sep ++ pyJoin sep (y :: xs)

/-- A chat message dict `{"role": ..., "content": ...}`. -/
structure ChatMessage where
  role : String
  content : String

/-- `build_context_messages(history, session_context, dir_context)`:
collects one labelled block per non-blank context source (directory first,
then session, then history) and wraps them in a two-turn priming exchange,
or returns no messages when every source is blank. -/
def build_context_messages
    (history session_context dir_context : String) : List ChatMessage :=
  let context_parts : List String :=
    (if pyStrip dir_context ≠ "" then
      ["Current directory:\n" ++ dir_context] else []) ++
    (if pyStrip session_context ≠ "" then
      ["Recent commands with exit codes:\n" ++ session_context] else []) ++
    (if pyStrip history ≠ "" then
      ["Shell history:\n" ++ history] else [])
  if context_parts.isEmpty then []
  else
    [⟨"user", "Here\x27s context from my terminal session:\n\n"
        ++ pyJoin "\n\n" context_parts⟩,
      ⟨"assistant",
        "Got it, I\x27ll use this context to understand your next request."⟩]

/-- C9: with all three context sources blank, `build_context_messages`
returns the empty message list, and conversely; in every other
configuration it returns exactly the two-turn user/assistant priming
exchange whose user turn carries, after the fixed prelude, exactly one
labeled block per non-blank source — in directory, session, history order
— and no block for any blank source.  All eight blank/non-blank
configurations are stated, so the output is pinned down on every input. -/
theorem build_context_messages_spec
    (history session_context dir_context : String) :
    (pyStrip history = "" → pyStrip session_context = "" →
      pyStrip dir_context = "" →
      build_context_messages history session_context dir_context = []) ∧
    (build_context_messages history session_context dir_context = [] →
      pyStrip history = "" ∧ pyStrip session_context = "" ∧
        pyStrip dir_context = "") ∧
    (pyStrip dir_context ≠ "" → pyStrip session_context = "" →
      pyStrip history = "" →
      build_context_messages history session_context dir_context =
        [⟨"user", "Here\x27s context from my terminal session:\n\n"
            ++ pyJoin "\n\n" ["Current directory:\n" ++ dir_context]⟩,
          ⟨"assistant",
            "Got it, I\x27ll use this context to understand your next request."⟩]) ∧
    (pyStrip dir_context = "" → pyStrip session_context ≠ "" →
      pyStrip history = "" →
      build_context_messages history session_context dir_context =
        [⟨"user", "Here\x27s context from my terminal session:\n\n"
            ++ pyJoin "\n\n"
              ["Recent commands with exit codes:\n" ++ session_context]⟩,
          ⟨"assistant",
            "Got it, I\x27ll use this context to understand your next request."⟩]) ∧
    (pyStrip dir_context = "" → pyStrip session_context = "" →
      pyStrip history ≠ "" →
      build_context_messages history session_context dir_context =
        [⟨"user", "Here\x27s context from my terminal session:\n\n"
            ++ pyJoin "\n\n" ["Shell history:\n" ++ history]⟩,
          ⟨"assistant",
            "Got it, I\x27ll use this context to understand your next request."⟩]) ∧
    (pyStrip dir_context ≠ "" → pyStrip session_context ≠ "" →
      pyStrip history = "" →
      build_context_messages history session_context dir_context =
        [⟨"user", "Here\x27s context from my terminal session:\n\n"
            ++ pyJoin "\n\n"
              ["Current directory:\n" ++ dir_context,
                "Recent commands with exit codes:\n" ++ session_context]⟩,
          ⟨"assistant",
            "Got it, I\x27ll use this context to understand your next request."⟩]) ∧
    (pyStrip dir_context ≠ "" → pyStrip session_context = "" →
      pyStrip history ≠ "" →
      build_context_messages history session_context dir_context =
        [⟨"user", "Here\x27s context from my terminal session:\n\n"
            ++ pyJoin "\n\n"
              ["Current directory:\n" ++ dir_context,
                "Shell history:\n" ++ history]⟩,
          ⟨"assistant",
            "Got it, I\x27ll use this context to understand your next request."⟩]) ∧
    (pyStrip dir_context = "" → pyStrip session_context ≠ "" →
      pyStrip history ≠ "" →
      build_context_messages history session_context dir_context =
        [⟨"user", "Here\x27s context from my terminal session:\n\n"
            ++ pyJoin "\n\n"
              ["Recent commands with exit codes:\n" ++ session_context,
                "Shell history:\n" ++ history]⟩,
          ⟨"assistant",
            "Got it, I\x27ll use this context to understand your next request."⟩]) ∧
    (pyStrip dir_context ≠ "" → pyStrip session_context ≠ "" →
      pyStrip history ≠ "" →
      build_context_messages history session_context dir_context =
        [⟨"user", "Here\x27s context from my terminal session:\n\n"
            ++ pyJoin "\n\n"
              ["Current directory:\n" ++ dir_context,
                "Recent commands with exit codes:\n" ++ session_context,
                "Shell history:\n" ++ history]⟩,
          ⟨"assistant",
            "Got it, I\x27ll use this context to understand your next request."⟩]) := by
  by_cases hd : pyStrip dir_context = "" <;>
    by_cases hs : pyStrip session_context = "" <;>
      by_cases hh : pyStrip history = "" <;>
        simp [build_context_messages, hd, hs, hh]

/-- Witness for C9: blank, directory-only, and all-three concrete inputs,
showing no block, exactly one labeled block, and one block per source. -/
theorem build_context_messages_spec_witness :
    build_context_messages "" " " "" = [] ∧
    build_context_messages "" " " "file.txt" =
      [⟨"user", "Here\x27s context from my terminal session:\n\n"
          ++ pyJoin "\n\n" ["Current directory:\n" ++ "file.txt"]⟩,
        ⟨"assistant",
          "Got it, I\x27ll use this context to understand your next request."⟩] ∧
    build_context_messages "ls -la" "echo hi" "file.txt" =
      [⟨"user", "Here\x27s context from my terminal session:\n\n"
          ++ pyJoin "\n\n"
            ["Current directory:\n" ++ "file.txt",
              "Recent commands with exit codes:\n" ++ "echo hi",
              "Shell history:\n" ++ "ls -la"]⟩,
        ⟨"assistant",
          "Got it, I\x27ll use this context to understand your next request."⟩] :=
  ⟨(build_context_messages_spec "" " " "").1 rfl rfl rfl,
    (build_context_messages_spec "" " " "file.txt").2.2.1
      (by decide) rfl rfl,
    (build_context_messages_spec "ls -la" "echo hi" "file.txt").2.2.2.2.2.2.2.2
      (by decide) (by decide) (by decide)⟩

/-- Python `str.lower()` (ASCII case folding, the only case the tool
exercises). -/
def pyLower (s : String) : String :=
  String.mk (s.data.map Char.toLower)

/-- Python `str.isdigit()` restricted to ASCII digits: true on nonempty
all-digit strings. -/
def pyIsDigit (s : String) : Bool :=
  !s.data.isEmpty && s.data.all (fun c => 48 ≤ c.toNat && c.toNat ≤ 57)

/-- Decimal digits to a natural number; models Python `int(s)` on an
all-digit string. -/
def digitsToNat (ds : List Char) : Nat :=
  ds.foldl (fun acc c => acc * 10 + (c.toNat - 48)) 0

/-- `parse_bool(value)`: `value.lower() in ("true", "1", "yes", "on")`. -/
def parse_bool (value : String) : Bool :=
  pyLower value = "true" || pyLower value = "1" ||
    pyLower value = "yes" || pyLower value = "on"

/-- The allow-list `VALID_CONFIG_KEYS`. -/
def VALID_CONFIG_KEYS : List String :=
  ["model", "quiet", "session.enabled", "session.dir", "session.size",
    "aliases.enabled", "feedback.file"]

/-- The value-coercion step of `cmd_set`: case-insensitive `true`/`false`
becomes a boolean via `parse_bool`, an all-digit string becomes an integer,
anything else stays a string. -/
def coerce_set_value (value : String) : Value :=
  if pyLower value = "true" || pyLower value = "false" then
    Value.vBool (parse_bool value)
  else if pyIsDigit value then Value.vInt (digitsToNat value.data)
  else Value.vStr value

/-- `cmd_set` on an already-loaded config map: rejects keys outside the
allow-list (exit 1, modelled `none`), otherwise coerces the value and
stores it with `set_nested` (whose `TypeError` is also `none`). -/
def cmd_set (key value : String) (config : ConfigMap) : Option ConfigMap :=
  if key ∈ VALID_CONFIG_KEYS then
    set_nested config key (coerce_set_value value)
  else none

/-- C6 (amended): for an allow-listed key, a successful `cmd_set` stores the
coerced value, where the coercion is case-insensitive on `true`/`false`
(via `parse_bool`), turns nonempty all-digit strings into integers, and
leaves every other string unchanged. -/
theorem cmd_set_coercion (key value : String) (config m' : ConfigMap)
    (hkey : key ∈ VALID_CONFIG_KEYS)
    (hset : cmd_set key value config = some m') :
    get_nested m' key = some (coerce_set_value value) ∧
    (pyLower value = "true" → coerce_set_value value = Value.vBool true) ∧
    (pyLower value = "false" → coerce_set_value value = Value.vBool false) ∧
    (pyLower value ≠ "true" → pyLower value ≠ "false" →
      pyIsDigit value = true →
      coerce_set_value value = Value.vInt (digitsToNat value.data)) ∧
    (pyLower value ≠ "true" → pyLower value ≠ "false" →
      pyIsDigit value = false →
      coerce_set_value value = Value.vStr value) := by
  refine ⟨?_, ?_, ?_, ?_, ?_⟩
  · rw [cmd_set, if_pos hkey] at hset
    exact set_get_go (keyParts key) config (coerce_set_value value) m' hset
  · intro h
    simp [coerce_set_value, parse_bool, h]
  · intro h
    have : pyLower value ≠ "true" := by simp [h]
    simp [coerce_set_value, parse_bool, h]
  · intro h₁ h₂ h₃
    simp [coerce_set_value, h₁, h₂, h₃]
  · intro h₁ h₂ h₃
    simp [coerce_set_value, h₁, h₂, h₃]

/-- Witness for C6 (amended): `set session.size 42` stores the integer 42. -/
theorem cmd_set_coercion_witness :
    get_nested [("session", Value.vDict [("size", Value.vInt 42)])]
      "session.size" = some (coerce_set_value "42") ∧
    coerce_set_value "42" = Value.vInt 42 ∧
    coerce_set_value "foo" = Value.vStr "foo" ∧
    coerce_set_value "true" = Value.vBool true :=
  ⟨(cmd_set_coercion "session.size" "42" []
      [("session", Value.vDict [("size", Value.vInt 42)])]
      (by decide) rfl).1, rfl, rfl, rfl⟩

/-- Counterexample to C6 as stated: the string `"TRUE"` is not the literal
`"true"`, yet it is not stored unchanged as a string — the match is
case-insensitive and stores the boolean `True`. -/
theorem coerce_set_value_case_insensitive :
    coerce_set_value "TRUE" = Value.vBool true ∧
    coerce_set_value "TRUE" ≠ Value.vStr "TRUE" := by
  refine ⟨rfl, ?_⟩
  intro h
  have h' : Value.vBool true = Value.vStr "TRUE" := h
  exact Value.noConfusion h'

/-- One decimal digit character.  Only ever applied to numbers below ten. -/
def digitChar : Nat → Char
  | 0 => '0' | 1 => '1' | 2 => '2' | 3 => '3' | 4 => '4'
  | 5 => '5' | 6 => '6' | 7 => '7' | 8 => '8' | 9 => '9'
  | _ => '0'

/-- Decimal digits of a natural number, most significant first; the fuel
argument (any bound above the number) keeps the recursion structural. -/
def natDigitsAux : Nat → Nat → List Char
  | 0, _ => []
  | fuel + 1, n =>
    if n < 10 then [digitChar n]
    else natDigitsAux fuel (n / 10) ++ [digitChar (n % 10)]

def natDigits (n : Nat) : List Char := natDigitsAux (n + 1) n

/-- Python `str(int)`: usual decimal notation, `-` sign for negatives. -/
def intStr (n : Int) : String :=
  if n < 0 then "-" ++ String.mk (natDigits (-n).toNat)
  else String.mk (natDigits n.toNat)

mutual

/-- Python `repr`/`str` of a value, used by the `f'"{value}"'` fallback of
`_toml_value`.  Only dictionaries reach that fallback, and only maps nested
two levels deep put a dictionary there, which the tool itself never creates
— modelled for totality, exercised by no claim. -/
def pyRepr : Value → String
  | Value.vStr s => "\x27" ++ s ++ "\x27"
  | Value.vBool true => "True"
  | Value.vBool false => "False"
  | Value.vInt n => intStr n
  | Value.vDict m => "\x7b" ++ pyReprItems m ++ "\x7d"

/-- Comma-separated `'key': value` items of a Python dict repr. -/
def pyReprItems : List (String × Value) → String
  | [] => ""
  | [(k, v)] => "\x27" ++ k ++ "\x27: " ++ pyRepr v
  | (k, v) :: kv :: rest =>
    "\x27" ++ k ++ "\x27: " ++ pyRepr v ++ ", " ++ pyReprItems (kv :: rest)

end

/-- `_toml_value(value)`: TOML representation of a scalar; booleans first,
then strings (quoted verbatim, with no escaping — the source of the C3
counterexample), then numbers, and the quoted-`str()` fallback. -/
def _toml_value : Value → String
  | Value.vBool b => if b then "true" else "false"
  | Value.vStr s => "\"" ++ s ++ "\""
  | Value.vInt n => intStr n
  | Value.vDict d => "\"" ++ pyRepr (Value.vDict d) ++ "\""

/-- The lines accumulated by `save_config`: top-level scalar keys first,
then one section block per nested dict, each block opened by an element
that carries a leading blank line (`"\n[key]"`). -/
def save_config_lines (config : ConfigMap) : List String :=
  (config.filterMap (fun kv =>
    match kv.2 with
    | Value.vDict _ => none
    | v => some (kv.1 ++ " = " ++ _toml_value v))) ++
  (config.flatMap (fun kv =>
    match kv.2 with
    | Value.vDict d =>
      ("\n[" ++ kv.1 ++ "]") ::
        d.map (fun kv₂ => kv₂.1 ++ " = " ++ _toml_value kv₂.2)
    | _ => []))

/-- `"\n".join(lines) + "\n"` — the file contents written by
`save_config`. -/
def joinNl : List String → String
  | [] => "\n"
  | [l] => l ++ "\n"
  | l :: l₂ :: ls => l ++ "\n" ++ joinNl (l₂ :: ls)

def save_config_text (config : ConfigMap) : String :=
  joinNl (save_config_lines config)

/-- TOML whitespace (space and tab), skipped around keys and values. -/
def isTomlWS (c : Char) : Bool := c.toNat = 32 || c.toNat = 9

/-- Strip leading and trailing TOML whitespace from a line fragment. -/
def trimC (l : List Char) : List Char :=
  ((l.dropWhile isTomlWS).reverse.dropWhile isTomlWS).reverse

/-- TOML bare-key characters: `A–Z`, `a–z`, `0–9`, `_`, `-`. -/
def validKeyChar (c : Char) : Bool :=
  (65 ≤ c.toNat && c.toNat ≤ 90) || (97 ≤ c.toNat && c.toNat ≤ 122) ||
    (48 ≤ c.toNat && c.toNat ≤ 57) || c.toNat = 95 || c.toNat = 45

def validKey (l : List Char) : Bool := !l.isEmpty && l.all validKeyChar

/-- Split a line at its first `=`, the key/value separator. -/
def splitFirstEq : List Char → Option (List Char × List Char)
  | [] => none
  | c :: rest =>
    if c = '=' then some ([], rest)
    else (splitFirstEq rest).map (fun p => (c :: p.1, p.2))

/-- TOML basic-string escapes (`\uXXXX`/`\UXXXXXXXX` are left out of the
model; the writer under verification only produces them from string values
that already contain a backslash, which the round-trip theorem excludes
and the counterexample does not use). -/
def escChar : Char → Option Char
  | 'n' => some (Char.ofNat 10)
  | 't' => some (Char.ofNat 9)
  | 'r' => some (Char.ofNat 13)
  | 'b' => some (Char.ofNat 8)
  | 'f' => some (Char.ofNat 12)
  | '\\' => some '\\'
  | '"' => some '"'
  | _ => none

/-- Body of a TOML basic string after the opening quote: ends at the
closing quote (which must end the value), processes escapes, and rejects
bare control characters other than tab; an unterminated string (for
instance one broken by a raw newline, which the line structure has already
split) is an error. -/
def parseBasicStr : List Char → List Char → Option String
  | [], _ => none
  | c :: rest, acc =>
    if c = '"' then
      if rest.isEmpty then some (String.mk acc.reverse) else none
    else if c = '\\' then
      match rest with
      | [] => none
      | e :: rest₂ =>
        match escChar e with
        | some ec => parseBasicStr rest₂ (ec :: acc)
        | none => none
    else if c.toNat = 9 || (32 ≤ c.toNat && c.toNat ≠ 127) then
      parseBasicStr rest (c :: acc)
    else none

/-- TOML decimal integer digits: nonempty, no leading zero (except `0`
itself). -/
def parseDigitsStrict (ds : List Char) : Option Nat :=
  if ds.isEmpty then none
  else if ds.all (fun c => 48 ≤ c.toNat && c.toNat ≤ 57) then
    if ds.head? = some '0' && ds.length != 1 then none
    else some (digitsToNat ds)
  else none

/-- TOML integer with an optional sign (`+` and `_` separators, which the
writer never produces, are left out of the model). -/
def parseTomlInt (l : List Char) : Option Value :=
  if l.head? = some '-' then
    (parseDigitsStrict l.tail).map (fun n => Value.vInt (-(n : Int)))
  else
    (parseDigitsStrict l).map (fun n => Value.vInt n)

/-- A TOML value as produced by the writer: `true`/`false`, a basic string,
or an integer.  Anything else is an error. -/
def parseTomlValue (l : List Char) : Option Value :=
  if l = "true".data then some (Value.vBool true)
  else if l = "false".data then some (Value.vBool false)
  else if l.head? = some '"' then (parseBasicStr l.tail []).map Value.vStr
  else parseTomlInt l

/-- Line-oriented TOML reader (the fragment of `tomllib.load` covering the
files the writer emits): blank lines are skipped, `[name]` opens a table
that must not already exist, and `key = value` assigns a bare key into the
current table, rejecting duplicates; any malformed line is an error. -/
def parseTomlLines :
    List (List Char) → Option String → ConfigMap → Option ConfigMap
  | [], _, acc => some acc
  | l :: ls, cur, acc =>
    let t := trimC l
    if t.isEmpty then parseTomlLines ls cur acc
    else if t.head? = some '[' then
      if t.getLast? = some ']' then
        let name := trimC t.tail.dropLast
        if validKey name && !alHas acc (String.mk name) then
          parseTomlLines ls (some (String.mk name))
            (acc ++ [(String.mk name, Value.vDict [])])
        else none
      else none
    else
      match splitFirstEq t with
      | none => none
      | some (kraw, vraw) =>
        let k := trimC kraw
        let vtxt := trimC vraw
        if validKey k then
          match parseTomlValue vtxt with
          | none => none
          | some v =>
            match cur with
            | none =>
              if alHas acc (String.mk k) then none
              else parseTomlLines ls none (acc ++ [(String.mk k, v)])
            | some sec =>
              match alGet acc sec with
              | some (Value.vDict d) =>
                if alHas d (String.mk k) then none
                else parseTomlLines ls (some sec)
                  (alSet acc sec (Value.vDict (d ++ [(String.mk k, v)])))
              | _ => none
        else none

/-- `tomllib.load` on the file contents; `none` models
`TOMLDecodeError`. -/
def tomllib_load (s : String) : Option ConfigMap :=
  parseTomlLines (splitChar '\n' s.data) none []

/-- `load_config()`: the file-system state is the optional file contents;
a missing file or a parse error both yield the empty map. -/
def load_config (file : Option String) : ConfigMap :=
  match file with
  | none => []
  | some contents =>
    match tomllib_load contents with
    | some config => config
    | none => []

/-- C8: `load_config` is total over every file-system state: a missing file
yields the empty map, unparseable contents yield the empty map (the
`TOMLDecodeError` is swallowed, never propagated), and parseable contents
yield the parsed map. -/
theorem load_config_total (s : String) :
    load_config none = [] ∧
    (tomllib_load s = none → load_config (some s) = []) ∧
    (∀ m, tomllib_load s = some m → load_config (some s) = m) := by
  refine ⟨rfl, ?_, ?_⟩
  · intro h
    simp [load_config, h]
  · intro m h
    simp [load_config, h]

/-- Witness for C8: the truncated line `model = ` fails to parse and
`load_config` swallows the failure into the empty map. -/
theorem load_config_total_witness :
    tomllib_load "model = " = none ∧
    load_config (some "model = ") = [] :=
  ⟨rfl, (load_config_total "model = ").2.1 rfl⟩

/-- Counterexample to C3 as stated: for the allow-listed map
`{"model": "a\\nb"}` (the string holds a literal backslash and an `n`),
the first save writes `model = "a\nb"`, whose re-load decodes the escape
into a real newline; saving that re-loaded map writes an unescaped newline
inside the quotes, which no longer parses, so the second re-load falls back
to the empty map and differs from the first re-load. -/
theorem save_load_backslash_not_idempotent :
    load_config (some (save_config_text [("model", Value.vStr "a\\nb")]))
      = [("model", Value.vStr "a\nb")] ∧
    load_config (some (save_config_text
        (load_config (some (save_config_text
          [("model", Value.vStr "a\\nb")])))))
      = [] ∧
    load_config (some (save_config_text
        (load_config (some (save_config_text
          [("model", Value.vStr "a\\nb")])))))
      ≠ load_config (some (save_config_text
          [("model", Value.vStr "a\\nb")])) := by
  have h₁ : load_config (some (save_config_text
      [("model", Value.vStr "a\\nb")])) = [("model", Value.vStr "a\nb")] :=
    rfl
  have h₂ : load_config (some (save_config_text
      (load_config (some (save_config_text
        [("model", Value.vStr "a\\nb")]))))) = [] := rfl
  refine ⟨h₁, h₂, ?_⟩
  rw [h₂, h₁]
  simp

/-- Is the value a nested dictionary (a section when saved)? -/
def isDictVal : Value → Bool
  | Value.vDict _ => true
  | _ => false

/-- Each key bound at most once, at the top level — the invariant of an
association list that embeds a real Python dict. -/
def keysUnique : ConfigMap → Bool
  | [] => true
  | (k, _) :: rest => !alHas rest k && keysUnique rest

/-- A character that survives the writer's unescaped quoting: not a double
quote, not a backslash, and no control character other than tab. -/
def cleanChar (c : Char) : Bool :=
  c.toNat = 9 ||
    (32 ≤ c.toNat && c.toNat ≠ 34 && c.toNat ≠ 92 && c.toNat ≠ 127)

/-- A scalar whose TOML text re-parses: strings must be clean. -/
def scalarClean : Value → Bool
  | Value.vStr s => s.data.all cleanChar
  | Value.vBool _ => true
  | Value.vInt _ => true
  | Value.vDict _ => false

/-- A saved entry that re-parses: a bare-valid key with a clean scalar, or
a section of such entries with unique keys. -/
def goodEntry : String × Value → Bool
  | (k, Value.vDict d) =>
    validKey k.data && keysUnique d &&
      d.all (fun kv => validKey kv.1.data && scalarClean kv.2)
  | (k, v) => validKey k.data && scalarClean v

def goodMap (m : ConfigMap) : Bool := keysUnique m && m.all goodEntry

/-- The inner keys the allow-list admits under each section name. -/
def sectionInnerKeys (k : String) : List String :=
  if k = "session" then ["enabled", "dir", "size"]
  else if k = "aliases" then ["enabled"]
  else if k = "feedback" then ["file"]
  else []

/-- An entry drawn from the allow-list (`VALID_CONFIG_KEYS`), nested at most
one section level, with clean scalar values. -/
def allowEntry : String × Value → Bool
  | (k, Value.vDict d) =>
    decide (k ∈ (["session", "aliases", "feedback"] : List String)) &&
      keysUnique d &&
      d.all (fun kv =>
        decide (kv.1 ∈ sectionInnerKeys k) && scalarClean kv.2)
  | (k, v) =>
    decide (k ∈ (["model", "quiet"] : List String)) && scalarClean v

/-- A config map whose keys are drawn only from the allow-list, nested at
most one section level, with unique keys and clean scalar values. -/
def allowlisted_clean (m : ConfigMap) : Bool :=
  keysUnique m && m.all allowEntry

/-- The canonical on-disk order: top-level scalars first, then sections —
exactly the order `save_config` writes and `load` reads back. -/
def reorder_config (m : ConfigMap) : ConfigMap :=
  m.filter (fun kv => !isDictVal kv.2) ++ m.filter (fun kv => isDictVal kv.2)

/-- The characters of one saved `key = value` line. -/
def lineOf (kv : String × Value) : List Char :=
  (kv.1 ++ " = " ++ _toml_value kv.2).data

/-- The file lines a saved section explodes to: the blank line and header
coming from the `"\n[key]"` element, then one line per entry. -/
def chunkOf (kv : String × Value) : List (List Char) :=
  match kv.2 with
  | Value.vDict d => [] :: (('[' :: kv.1.data) ++ [']']) :: d.map lineOf
  | _ => []

theorem splitChar_no_sep (sep : Char) (xs : List Char)
    (h : ∀ c ∈ xs, c ≠ sep) : splitChar sep xs = [xs] := by
  induction xs with
  | nil => rfl
  | cons c cs ih =>
    rw [splitChar, if_neg (h c (by simp)), ih (fun c' hc' => h c' (by simp [hc']))]

theorem splitChar_append_sep (sep : Char) (xs ys : List Char) :
    splitChar sep (xs ++ sep :: ys)
      = splitChar sep xs ++ splitChar sep ys := by
  induction xs with
  | nil => simp [splitChar]
  | cons c cs ih =>
    by_cases hc : c = sep
    · subst hc
      rw [List.cons_append, splitChar, if_pos rfl, ih, splitChar, if_pos rfl]
      simp
    · rw [List.cons_append, splitChar, if_neg hc, ih]
      rcases h : splitChar sep cs with _ | ⟨l, ls⟩
      · exact absurd h (splitChar_ne_nil sep cs)
      · have hrhs : splitChar sep (c :: cs) = (c :: l) :: ls := by
          rw [splitChar, if_neg hc, h]
        rw [hrhs]
        simp

theorem splitChar_joinNl (L : List String) (hL : L ≠ []) :
    splitChar '\n' (joinNl L).data
      = (L.flatMap (fun s => splitChar '\n' s.data)) ++ [[]] := by
  match L with
  | [l] =>
    have h : (joinNl [l]).data = l.data ++ '\n' :: [] := by
      show (l ++ "\n").data = _
      rw [String.data_append]
    rw [h, splitChar_append_sep]
    simp [splitChar]
  | l :: l₂ :: ls =>
    have h : (joinNl (l :: l₂ :: ls)).data
        = l.data ++ '\n' :: (joinNl (l₂ :: ls)).data := by
      show (l ++ "\n" ++ joinNl (l₂ :: ls)).data = _
      rw [String.data_append, String.data_append]
      simp
    rw [h, splitChar_append_sep, splitChar_joinNl (l₂ :: ls) (by simp)]
    simp [List.flatMap_cons, List.append_assoc]

theorem head?_append_left {α : Type} (l₁ l₂ : List α) (h : l₁ ≠ []) :
    (l₁ ++ l₂).head? = l₁.head? := by
  cases l₁ with
  | nil => exact absurd rfl h
  | cons a t => simp

theorem getLast?_append_right {α : Type} (l₁ l₂ : List α) (h : l₂ ≠ []) :
    (l₁ ++ l₂).getLast? = l₂.getLast? :=
  List.getLast?_append_of_ne_nil l₁ h

theorem mem_of_head?_eq {α : Type} {l : List α} {c : α}
    (h : l.head? = some c) : c ∈ l := by
  cases l with
  | nil => simp at h
  | cons a t => simp at h; simp [h]

theorem mem_of_getLast?_eq {α : Type} {l : List α} {c : α}
    (h : l.getLast? = some c) : c ∈ l :=
  List.mem_of_mem_getLast? (by simp [h])

theorem dropWhile_ws_all (a r : List Char)
    (ha : ∀ c ∈ a, isTomlWS c = true) :
    (a ++ r).dropWhile isTomlWS = r.dropWhile isTomlWS := by
  induction a with
  | nil => rfl
  | cons c cs ih =>
    rw [List.cons_append, List.dropWhile_cons, if_pos (ha c (by simp))]
    exact ih (fun c' hc' => ha c' (by simp [hc']))

theorem dropWhile_ws_head (xs : List Char)
    (h : ∀ c, xs.head? = some c → isTomlWS c = false) :
    xs.dropWhile isTomlWS = xs := by
  cases xs with
  | nil => rfl
  | cons c cs => rw [List.dropWhile_cons, if_neg (by simp [h c rfl])]

/-- Trimming whitespace around a fragment whose first and last characters
are not whitespace recovers exactly the fragment. -/
theorem trimC_sandwich (a xs b : List Char)
    (ha : ∀ c ∈ a, isTomlWS c = true) (hb : ∀ c ∈ b, isTomlWS c = true)
    (h1 : ∀ c, xs.head? = some c → isTomlWS c = false)
    (h2 : ∀ c, xs.getLast? = some c → isTomlWS c = false) :
    trimC (a ++ (xs ++ b)) = xs := by
  unfold trimC
  rw [dropWhile_ws_all a (xs ++ b) ha]
  cases xs with
  | nil =>
    have hb' : b.dropWhile isTomlWS = [] := by
      have := dropWhile_ws_all b [] hb
      simpa using this
    rw [List.nil_append, hb']
    rfl
  | cons c cs =>
    rw [dropWhile_ws_head ((c :: cs) ++ b)
      (by
        intro c' hc'
        rw [head?_append_left (c :: cs) b (by simp)] at hc'
        simp at hc'
        exact h1 c' (by simp [hc']))]
    rw [List.reverse_append, dropWhile_ws_all b.reverse (c :: cs).reverse
      (by intro c' hc'; exact hb c' (List.mem_reverse.mp hc'))]
    rw [dropWhile_ws_head (c :: cs).reverse
      (by
        intro c' hc'
        rw [List.head?_reverse] at hc'
        exact h2 c' hc')]
    exact List.reverse_reverse _

theorem validKeyChar_not_ws (c : Char) (h : validKeyChar c = true) :
    isTomlWS c = false := by
  simp only [validKeyChar, Bool.or_eq_true, Bool.and_eq_true,
    decide_eq_true_eq] at h
  simp only [isTomlWS, Bool.or_eq_false_iff, decide_eq_false_iff_not]
  omega

theorem validKeyChar_ne (c : Char) (h : validKeyChar c = true) (d : Char)
    (hd : 90 < d.toNat ∧ d.toNat < 97 ∧ d.toNat ≠ 95 ∨ d.toNat < 45 ∨
      (45 < d.toNat ∧ d.toNat < 48) ∨ (57 < d.toNat ∧ d.toNat < 65) ∨
      122 < d.toNat) : c ≠ d := by
  intro he
  subst he
  simp only [validKeyChar, Bool.or_eq_true, Bool.and_eq_true,
    decide_eq_true_eq] at h
  omega

theorem cleanChar_facts (c : Char) (h : cleanChar c = true) :
    c ≠ '\n' ∧ c ≠ '"' ∧ c ≠ '\\' ∧
      (c.toNat = 9 || (32 ≤ c.toNat && c.toNat ≠ 127)) = true := by
  refine ⟨?_, ?_, ?_, ?_⟩
  · intro he; subst he; exact absurd h (by decide)
  · intro he; subst he; exact absurd h (by decide)
  · intro he; subst he; exact absurd h (by decide)
  · simp only [cleanChar, Bool.or_eq_true, Bool.and_eq_true,
      decide_eq_true_eq] at h
    simp only [Bool.or_eq_true, Bool.and_eq_true, decide_eq_true_eq]
    omega

theorem digitChar_toNat (n : Nat) (h : n < 10) :
    (digitChar n).toNat = 48 + n := by
  interval_cases n <;> rfl

theorem natDigitsAux_mem (fuel n : Nat) :
    ∀ c ∈ natDigitsAux fuel n, 48 ≤ c.toNat ∧ c.toNat ≤ 57 := by
  induction fuel generalizing n with
  | zero => intro c hc; simp [natDigitsAux] at hc
  | succ fuel ih =>
    intro c hc
    rw [natDigitsAux] at hc
    by_cases h : n < 10
    · rw [if_pos h] at hc
      simp at hc
      subst hc
      rw [digitChar_toNat n h]
      omega
    · rw [if_neg h] at hc
      rcases List.mem_append.mp hc with h₁ | h₂
      · exact ih (n / 10) c h₁
      · simp at h₂
        subst h₂
        rw [digitChar_toNat _ (Nat.mod_lt _ (by omega))]
        omega

theorem natDigitsAux_ne_nil (fuel n : Nat) (h : 0 < fuel) :
    natDigitsAux fuel n ≠ [] := by
  match fuel with
  | f + 1 =>
    rw [natDigitsAux]
    split
    · simp
    · simp

theorem digitsToNat_concat (xs : List Char) (c : Char) :
    digitsToNat (xs ++ [c]) = digitsToNat xs * 10 + (c.toNat - 48) := by
  simp [digitsToNat, List.foldl_append]

theorem digitsToNat_natDigitsAux (fuel n : Nat) (h : n < fuel) :
    digitsToNat (natDigitsAux fuel n) = n := by
  induction fuel generalizing n with
  | zero => omega
  | succ fuel ih =>
    rw [natDigitsAux]
    by_cases h10 : n < 10
    · rw [if_pos h10]
      have hv : digitsToNat [digitChar n] = (digitChar n).toNat - 48 := by
        simp [digitsToNat]
      rw [hv, digitChar_toNat n h10]
      omega
    · have hdiv : n / 10 < n := Nat.div_lt_self (by omega) (by omega)
      rw [if_neg h10, digitsToNat_concat, ih (n / 10) (by omega),
        digitChar_toNat _ (Nat.mod_lt _ (by omega))]
      omega

theorem natDigitsAux_head_ne_zero (fuel n : Nat) (hf : n < fuel)
    (hn : n ≠ 0) : (natDigitsAux fuel n).head? ≠ some '0' := by
  induction fuel generalizing n with
  | zero => omega
  | succ fuel ih =>
    rw [natDigitsAux]
    by_cases h10 : n < 10
    · rw [if_pos h10]
      intro hcon
      simp at hcon
      have hdc := digitChar_toNat n h10
      rw [hcon] at hdc
      have h0 : ('0' : Char).toNat = 48 := rfl
      omega
    · have hdiv : n / 10 < n := Nat.div_lt_self (by omega) (by omega)
      rw [if_neg h10,
        head?_append_left _ _ (natDigitsAux_ne_nil fuel (n / 10) (by omega))]
      exact ih (n / 10) (by omega) (by omega)

theorem parseDigitsStrict_natDigits (n : Nat) :
    parseDigitsStrict (natDigits n) = some n := by
  by_cases h0 : n = 0
  · subst h0; rfl
  · unfold parseDigitsStrict natDigits
    have hne := natDigitsAux_ne_nil (n + 1) n (by omega)
    rw [if_neg (by simp [hne])]
    rw [if_pos (by
      rw [List.all_eq_true]
      intro c hc
      have := natDigitsAux_mem (n + 1) n c hc
      simp only [Bool.and_eq_true, decide_eq_true_eq]
      omega)]
    rw [if_neg (by
      have hh := natDigitsAux_head_ne_zero (n + 1) n (by omega) h0
      simp [hh])]
    rw [digitsToNat_natDigitsAux (n + 1) n (by omega)]

theorem mk_data (s : String) : String.mk s.data = s := rfl

theorem toml_vStr_data (s : String) :
    (_toml_value (Value.vStr s)).data = '"' :: (s.data ++ ['"']) := by
  show ("\"" ++ s ++ "\"").data = _
  rw [String.data_append, String.data_append]
  simp

theorem intStr_data_neg (n : Int) (h : n < 0) :
    (intStr n).data = '-' :: natDigits (-n).toNat := by
  rw [intStr, if_pos h, String.data_append]
  rfl

theorem intStr_data_nonneg (n : Int) (h : ¬ n < 0) :
    (intStr n).data = natDigits n.toNat := by
  rw [intStr, if_neg h]

theorem intStr_chars (n : Int) :
    ∀ c ∈ (intStr n).data,
      c.toNat = 45 ∨ (48 ≤ c.toNat ∧ c.toNat ≤ 57) := by
  by_cases h : n < 0
  · rw [intStr_data_neg n h]
    intro c hc
    rcases List.mem_cons.mp hc with rfl | hc'
    · left; rfl
    · right; exact natDigitsAux_mem _ _ c hc'
  · rw [intStr_data_nonneg n h]
    intro c hc
    right
    exact natDigitsAux_mem _ _ c hc

theorem intStr_ne_nil (n : Int) : (intStr n).data ≠ [] := by
  by_cases h : n < 0
  · rw [intStr_data_neg n h]; simp
  · rw [intStr_data_nonneg n h]
    exact natDigitsAux_ne_nil _ _ (by omega)

theorem parseTomlInt_intStr (n : Int) :
    parseTomlInt ((intStr n).data) = some (Value.vInt n) := by
  by_cases h : n < 0
  · rw [intStr_data_neg n h]
    unfold parseTomlInt
    rw [if_pos (show ('-' :: natDigits (-n).toNat).head? = some '-' from rfl)]
    have ht : (((-n).toNat : Int)) = -n := Int.toNat_of_nonneg (by omega)
    simp [parseDigitsStrict_natDigits, ht]
  · rw [intStr_data_nonneg n h]
    unfold parseTomlInt
    rcases hd : natDigits n.toNat with _ | ⟨c, cs⟩
    · exact absurd hd (natDigitsAux_ne_nil _ _ (by omega))
    · have hc : 48 ≤ c.toNat ∧ c.toNat ≤ 57 :=
        natDigitsAux_mem _ _ c (by rw [show natDigitsAux (n.toNat + 1) n.toNat = c :: cs from hd]; simp)
      rw [if_neg (by
        simp only [List.head?_cons, Option.some.injEq]
        intro he
        rw [he] at hc
        simp at hc)]
      rw [show (c :: cs : List Char) = natDigits n.toNat from hd.symm,
        parseDigitsStrict_natDigits]
      have ht : ((n.toNat : Int)) = n := Int.toNat_of_nonneg (by omega)
      simp [ht]

theorem parseBasicStr_clean (cs : List Char)
    (hclean : ∀ c ∈ cs, cleanChar c = true) :
    ∀ acc, parseBasicStr (cs ++ ['"']) acc
      = some (String.mk (acc.reverse ++ cs)) := by
  induction cs with
  | nil =>
    intro acc
    show parseBasicStr ['"'] acc = _
    simp [parseBasicStr]
  | cons c cs' ih =>
    intro acc
    obtain ⟨hn, hq, hb, hctl⟩ := cleanChar_facts c (hclean c (by simp))
    rw [List.cons_append]
    have hstep : parseBasicStr (c :: (cs' ++ ['"'])) acc
        = if c = '"' then
            (if (cs' ++ ['"']).isEmpty then some (String.mk acc.reverse)
              else none)
          else if c = '\\' then
            match cs' ++ ['"'] with
            | [] => none
            | e :: rest₂ =>
              match escChar e with
              | some ec => parseBasicStr rest₂ (ec :: acc)
              | none => none
          else if c.toNat = 9 || (32 ≤ c.toNat && c.toNat ≠ 127) then
            parseBasicStr (cs' ++ ['"']) (c :: acc)
          else none := by
      rw [parseBasicStr.eq_def]
    rw [hstep, if_neg hq, if_neg hb, if_pos hctl,
      ih (fun c' h' => hclean c' (by simp [h'])) (c :: acc)]
    simp

theorem toml_vInt_ne_word (n : Int) (w : String) (c : Char) (hc : c ∈ w.data)
    (hcval : 97 ≤ c.toNat) : (intStr n).data ≠ w.data := by
  intro he
  have hm : c ∈ (intStr n).data := by rw [he]; exact hc
  have := intStr_chars n c hm
  omega

/-- Round trip of the value layer: a clean scalar's TOML text parses back
to the same value. -/
theorem parseTomlValue_toml_value (v : Value) (h : scalarClean v = true) :
    parseTomlValue ((_toml_value v).data) = some v := by
  cases v with
  | vBool b => cases b <;> rfl
  | vStr s =>
    rw [toml_vStr_data]
    unfold parseTomlValue
    rw [if_neg (by
      simp [show ("true" : String).data = ['t', 'r', 'u', 'e'] from rfl])]
    rw [if_neg (by
      simp [show ("false" : String).data = ['f', 'a', 'l', 's', 'e'] from rfl])]
    rw [if_pos
      (show ('"' :: (s.data ++ ['"'])).head? = some '"' from rfl)]
    show (parseBasicStr (s.data ++ ['"']) []).map Value.vStr = _
    rw [parseBasicStr_clean s.data (by
      intro c hc
      have := h
      rw [scalarClean, List.all_eq_true] at this
      exact this c hc) []]
    simp [mk_data]
  | vInt n =>
    show parseTomlValue ((intStr n).data) = _
    unfold parseTomlValue
    rw [if_neg (toml_vInt_ne_word n "true" 't' (by decide) (by decide))]
    rw [if_neg (toml_vInt_ne_word n "false" 'f' (by decide) (by decide))]
    rw [if_neg (by
      intro he
      have hm : '"' ∈ (intStr n).data := mem_of_head?_eq he
      have := intStr_chars n '"' hm
      simp at this)]
    exact parseTomlInt_intStr n
  | vDict d => simp [scalarClean] at h

theorem validKey_ne_nil (k : List Char) (h : validKey k = true) : k ≠ [] := by
  simp only [validKey, Bool.and_eq_true, Bool.not_eq_true'] at h
  simpa using h.1

theorem validKey_mem (k : List Char) (h : validKey k = true) :
    ∀ c ∈ k, validKeyChar c = true := by
  simp only [validKey, Bool.and_eq_true, List.all_eq_true] at h
  exact h.2

theorem toml_vBool_true_data :
    (_toml_value (Value.vBool true)).data = ['t', 'r', 'u', 'e'] := rfl

theorem toml_vBool_false_data :
    (_toml_value (Value.vBool false)).data = ['f', 'a', 'l', 's', 'e'] := rfl

theorem toml_value_ne_nil (v : Value) : (_toml_value v).data ≠ [] := by
  cases v with
  | vBool b => cases b
               · rw [toml_vBool_false_data]; simp
               · rw [toml_vBool_true_data]; simp
  | vStr s => rw [toml_vStr_data]; simp
  | vInt n => exact intStr_ne_nil n
  | vDict d =>
    show ("\"" ++ pyRepr (Value.vDict d) ++ "\"").data ≠ []
    rw [String.data_append]
    simp

theorem toml_value_head_ws (v : Value) :
    ∀ c, (_toml_value v).data.head? = some c → isTomlWS c = false := by
  intro c hc
  cases v with
  | vBool b =>
    cases b
    · rw [toml_vBool_false_data] at hc; simp at hc; subst hc; rfl
    · rw [toml_vBool_true_data] at hc; simp at hc; subst hc; rfl
  | vStr s => rw [toml_vStr_data] at hc; simp at hc; subst hc; rfl
  | vInt n =>
    have hr := intStr_chars n c (mem_of_head?_eq hc)
    simp only [isTomlWS, Bool.or_eq_false_iff, decide_eq_false_iff_not]
    omega
  | vDict d =>
    have hd : (_toml_value (Value.vDict d)).data
        = '"' :: (pyRepr (Value.vDict d) ++ "\"").data := by
      show ("\"" ++ (pyRepr (Value.vDict d) ++ "\"")).data = _
      rw [String.data_append]
      rfl
    rw [hd] at hc
    simp at hc
    subst hc
    rfl

theorem toml_value_last_ws (v : Value) (h : scalarClean v = true) :
    ∀ c, (_toml_value v).data.getLast? = some c → isTomlWS c = false := by
  intro c hc
  cases v with
  | vBool b =>
    cases b
    · rw [toml_vBool_false_data] at hc; simp at hc; subst hc; rfl
    · rw [toml_vBool_true_data] at hc; simp at hc; subst hc; rfl
  | vStr s =>
    rw [toml_vStr_data] at hc
    rw [show ('"' :: (s.data ++ ['"'])) = ('"' :: s.data) ++ ['"'] by simp,
      List.getLast?_concat] at hc
    simp at hc
    subst hc
    rfl
  | vInt n =>
    have hr := intStr_chars n c (mem_of_getLast?_eq hc)
    simp only [isTomlWS, Bool.or_eq_false_iff, decide_eq_false_iff_not]
    omega
  | vDict d => simp [scalarClean] at h

theorem toml_value_no_newline (v : Value) (h : scalarClean v = true) :
    ∀ c ∈ (_toml_value v).data, c ≠ '\n' := by
  intro c hc
  cases v with
  | vBool b =>
    cases b
    · rw [toml_vBool_false_data] at hc
      simp at hc
      rcases hc with rfl | rfl | rfl | rfl | rfl <;> decide
    · rw [toml_vBool_true_data] at hc
      simp at hc
      rcases hc with rfl | rfl | rfl | rfl <;> decide
  | vStr s =>
    rw [toml_vStr_data] at hc
    rw [scalarClean, List.all_eq_true] at h
    rcases List.mem_cons.mp hc with rfl | hc'
    · decide
    · rcases List.mem_append.mp hc' with hs | hq
      · exact (cleanChar_facts c (h c hs)).1
      · simp at hq; subst hq; decide
  | vInt n =>
    have hr := intStr_chars n c hc
    intro he
    subst he
    revert hr
    decide
  | vDict d => simp [scalarClean] at h

theorem splitFirstEq_append (a b : List Char) (h : ∀ c ∈ a, c ≠ '=') :
    splitFirstEq (a ++ '=' :: b) = some (a, b) := by
  induction a with
  | nil => simp [splitFirstEq]
  | cons c cs ih =>
    rw [List.cons_append, splitFirstEq, if_neg (h c (by simp)),
      ih (fun c' hc' => h c' (by simp [hc']))]
    rfl

theorem lineOf_eq (k : String) (v : Value) :
    lineOf (k, v) = (k.data ++ [' ']) ++ '=' :: (' ' :: (_toml_value v).data) := by
  show (k ++ " = " ++ _toml_value v).data = _
  rw [String.data_append, String.data_append]
  simp

/-- Everything the parser needs to know about one generated
`key = value` line. -/
theorem lineOf_facts (k : String) (v : Value)
    (hk : validKey k.data = true) (hv : scalarClean v = true) :
    trimC (lineOf (k, v)) = lineOf (k, v) ∧
    (lineOf (k, v)).isEmpty = false ∧
    ¬ (lineOf (k, v)).head? = some '[' ∧
    splitFirstEq (lineOf (k, v))
      = some (k.data ++ [' '], ' ' :: (_toml_value v).data) ∧
    trimC (k.data ++ [' ']) = k.data ∧
    trimC (' ' :: (_toml_value v).data) = (_toml_value v).data ∧
    (∀ c ∈ lineOf (k, v), c ≠ '\n') := by
  have hkne : k.data ≠ [] := validKey_ne_nil k.data hk
  have hkmem := validKey_mem k.data hk
  have hvne : (_toml_value v).data ≠ [] := toml_value_ne_nil v
  have hhead : (lineOf (k, v)).head? = k.data.head? := by
    rw [lineOf_eq, List.append_assoc]
    exact head?_append_left k.data _ hkne
  refine ⟨?_, ?_, ?_, ?_, ?_, ?_, ?_⟩
  · rw [lineOf_eq]
    have h1 : (k.data ++ [' ']) ++ '=' :: (' ' :: (_toml_value v).data)
        = [] ++ ((k.data ++ ([' '] ++ '=' :: (' ' :: (_toml_value v).data))) ++ []) := by
      simp
    rw [h1]
    rw [trimC_sandwich [] _ [] (by simp) (by simp) ?_ ?_]
    · simp
    · intro c hc
      rw [head?_append_left k.data _ hkne] at hc
      exact validKeyChar_not_ws c (hkmem c (mem_of_head?_eq hc))
    · intro c hc
      rw [getLast?_append_right k.data _ (by simp)] at hc
      rw [show ([' '] ++ '=' :: (' ' :: (_toml_value v).data))
          = [' ', '=', ' '] ++ (_toml_value v).data from rfl] at hc
      rw [getLast?_append_right [' ', '=', ' '] _ hvne] at hc
      exact toml_value_last_ws v hv c hc
  · have hne : lineOf (k, v) ≠ [] := by
      rw [lineOf_eq]
      simp
    rcases hl : lineOf (k, v) with _ | ⟨a, t⟩
    · exact absurd hl hne
    · rfl
  · rw [hhead]
    intro hc
    have := hkmem '[' (mem_of_head?_eq hc)
    exact absurd this (by decide)
  · rw [lineOf_eq]
    apply splitFirstEq_append
    intro c hc
    rcases List.mem_append.mp hc with hck | hcs
    · exact validKeyChar_ne c (hkmem c hck) '=' (by decide)
    · simp at hcs
      subst hcs
      decide
  · have h1 : k.data ++ [' '] = [] ++ (k.data ++ [' ']) := by simp
    rw [h1, trimC_sandwich [] k.data [' '] (by simp)
      (by intro c hc; simp at hc; subst hc; rfl) ?_ ?_]
    · intro c hc
      exact validKeyChar_not_ws c (hkmem c (mem_of_head?_eq hc))
    · intro c hc
      exact validKeyChar_not_ws c (hkmem c (mem_of_getLast?_eq hc))
  · have h1 : ' ' :: (_toml_value v).data
        = [' '] ++ ((_toml_value v).data ++ []) := by simp
    rw [h1, trimC_sandwich [' '] _ []
      (by intro c hc; simp at hc; subst hc; rfl) (by simp) ?_ ?_]
    · exact toml_value_head_ws v
    · exact toml_value_last_ws v hv
  · rw [lineOf_eq]
    intro c hc
    rcases List.mem_append.mp hc with hck | hcs
    · rcases List.mem_append.mp hck with hck' | hsp
      · exact validKeyChar_ne c (hkmem c hck') '\n' (by decide)
      · simp at hsp; subst hsp; decide
    · rcases List.mem_cons.mp hcs with rfl | hcs'
      · decide
      · rcases List.mem_cons.mp hcs' with rfl | hcv
        · decide
        · exact toml_value_no_newline v hv c hcv

theorem alGet_eq_none_of_alHas (m : ConfigMap) (k : String)
    (h : alHas m k = false) : alGet m k = none := by
  cases hg : alGet m k with
  | none => rfl
  | some v => rw [alHas, hg] at h; simp at h

theorem alGet_append_last (acc₀ : ConfigMap) (sec : String) (x : Value)
    (h : alHas acc₀ sec = false) :
    alGet (acc₀ ++ [(sec, x)]) sec = some x := by
  induction acc₀ with
  | nil => simp [alGet]
  | cons hd tl ih =>
    obtain ⟨k₀, v₀⟩ := hd
    rw [alHas] at h
    by_cases hk : k₀ = sec
    · subst hk
      rw [alGet, if_pos rfl] at h
      simp at h
    · rw [alGet, if_neg hk] at h
      rw [List.cons_append, alGet, if_neg hk]
      exact ih h

theorem alSet_append_last (acc₀ : ConfigMap) (sec : String) (x y : Value)
    (h : alHas acc₀ sec = false) :
    alSet (acc₀ ++ [(sec, x)]) sec y = acc₀ ++ [(sec, y)] := by
  induction acc₀ with
  | nil => simp [alSet]
  | cons hd tl ih =>
    obtain ⟨k₀, v₀⟩ := hd
    rw [alHas] at h
    by_cases hk : k₀ = sec
    · subst hk
      rw [alGet, if_pos rfl] at h
      simp at h
    · rw [alGet, if_neg hk] at h
      rw [List.cons_append, alSet, if_neg hk, ih h]
      rfl

/-- One-step unfolding of the TOML line reader on a cons. -/
theorem parseTomlLines_cons (l : List Char) (ls : List (List Char))
    (cur : Option String) (acc : ConfigMap) :
    parseTomlLines (l :: ls) cur acc
      = (if (trimC l).isEmpty then parseTomlLines ls cur acc
        else if (trimC l).head? = some '[' then
          if (trimC l).getLast? = some ']' then
            if validKey (trimC (trimC l).tail.dropLast) &&
                !alHas acc (String.mk (trimC (trimC l).tail.dropLast)) then
              parseTomlLines ls
                (some (String.mk (trimC (trimC l).tail.dropLast)))
                (acc ++
                  [(String.mk (trimC (trimC l).tail.dropLast),
                    Value.vDict [])])
            else none
          else none
        else
          match splitFirstEq (trimC l) with
          | none => none
          | some (kraw, vraw) =>
            if validKey (trimC kraw) then
              match parseTomlValue (trimC vraw) with
              | none => none
              | some v =>
                match cur with
                | none =>
                  if alHas acc (String.mk (trimC kraw)) then none
                  else
                    parseTomlLines ls none
                      (acc ++ [(String.mk (trimC kraw), v)])
                | some sec =>
                  match alGet acc sec with
                  | some (Value.vDict d) =>
                    if alHas d (String.mk (trimC kraw)) then none
                    else
                      parseTomlLines ls (some sec)
                        (alSet acc sec
                          (Value.vDict (d ++ [(String.mk (trimC kraw), v)])))
                  | _ => none
            else none) := by
  rw [parseTomlLines.eq_def]

theorem parse_blank_step (ls : List (List Char)) (cur : Option String)
    (acc : ConfigMap) :
    parseTomlLines ([] :: ls) cur acc = parseTomlLines ls cur acc := by
  rw [parseTomlLines_cons]
  rfl

/-- Reading one generated `key = value` line: assigns into the current
table (or the top level), rejecting duplicate keys. -/
theorem parse_kv_line (k : String) (v : Value) (ls : List (List Char))
    (cur : Option String) (acc : ConfigMap)
    (hk : validKey k.data = true) (hv : scalarClean v = true) :
    parseTomlLines (lineOf (k, v) :: ls) cur acc
      = (match cur with
        | none =>
          if alHas acc k then none
          else parseTomlLines ls none (acc ++ [(k, v)])
        | some sec =>
          match alGet acc sec with
          | some (Value.vDict d) =>
            if alHas d k then none
            else parseTomlLines ls (some sec)
              (alSet acc sec (Value.vDict (d ++ [(k, v)])))
          | _ => none) := by
  obtain ⟨ht, he, hhb, hsp, htk, htv, -⟩ := lineOf_facts k v hk hv
  rw [parseTomlLines_cons, ht]
  rw [if_neg (by simp [he])]
  rw [if_neg hhb]
  simp only [hsp, htk, htv, hk, parseTomlValue_toml_value v hv, mk_data,
    if_true]

/-- Reading one generated `[section]` header line. -/
theorem parse_header_step (k : String) (ls : List (List Char))
    (cur : Option String) (acc : ConfigMap)
    (hk : validKey k.data = true) (hfresh : alHas acc k = false) :
    parseTomlLines ((('[' :: k.data) ++ [']']) :: ls) cur acc
      = parseTomlLines ls (some k) (acc ++ [(k, Value.vDict [])]) := by
  have hkmem := validKey_mem k.data hk
  have hts : trimC (('[' :: k.data) ++ [']']) = ('[' :: k.data) ++ [']'] := by
    have h1 : ('[' :: k.data) ++ [']']
        = [] ++ ((('[' :: k.data) ++ [']']) ++ []) := by simp
    rw [h1, trimC_sandwich [] _ [] (by simp) (by simp) ?_ ?_]
    · simp
    · intro c hc
      rw [head?_append_left ('[' :: k.data) [']'] (by simp)] at hc
      simp at hc
      subst hc
      rfl
    · intro c hc
      rw [List.getLast?_concat] at hc
      simp at hc
      subst hc
      rfl
  have hname : trimC ((('[' :: k.data) ++ [']']).tail.dropLast) = k.data := by
    show trimC ((k.data ++ [']']).dropLast) = k.data
    rw [List.dropLast_concat]
    have h1 : k.data = [] ++ (k.data ++ []) := by simp
    rw [h1, trimC_sandwich [] k.data [] (by simp) (by simp) ?_ ?_]
    · simp
    · intro c hc
      exact validKeyChar_not_ws c (hkmem c (mem_of_head?_eq hc))
    · intro c hc
      exact validKeyChar_not_ws c (hkmem c (mem_of_getLast?_eq hc))
  rw [parseTomlLines_cons, hts]
  rw [if_neg (by simp)]
  rw [if_pos (show (('[' :: k.data) ++ [']']).head? = some '[' by
    rw [head?_append_left ('[' :: k.data) [']'] (by simp)]; rfl)]
  rw [if_pos (List.getLast?_concat _)]
  rw [hname, mk_data]
  rw [if_pos (by simp [hk, hfresh])]

theorem alHas_cons_ne (k₀ : String) (v₀ : Value) (tl : ConfigMap)
    (k : String) (hk : k₀ ≠ k) :
    alHas ((k₀, v₀) :: tl) k = alHas tl k := by
  simp [alHas, alGet, hk]

theorem alHas_append (a b : ConfigMap) (k : String) :
    alHas (a ++ b) k = (alHas a k || alHas b k) := by
  induction a with
  | nil => simp [alHas, alGet]
  | cons hd tl ih =>
    obtain ⟨k₀, v₀⟩ := hd
    by_cases hk : k₀ = k
    · subst hk
      simp [alHas, alGet]
    · rw [List.cons_append, alHas_cons_ne k₀ v₀ _ k hk,
        alHas_cons_ne k₀ v₀ tl k hk, ih]

theorem keysUnique_append_not_has (xs ys : ConfigMap) (k : String)
    (v : Value) (h : keysUnique (xs ++ (k, v) :: ys) = true) :
    alHas xs k = false := by
  induction xs with
  | nil => rfl
  | cons hd tl ih =>
    obtain ⟨k₀, v₀⟩ := hd
    rw [List.cons_append, keysUnique, Bool.and_eq_true] at h
    obtain ⟨h₁, h₂⟩ := h
    by_cases hk : k₀ = k
    · subst hk
      rw [Bool.not_eq_true', alHas_append] at h₁
      simp [alHas, alGet] at h₁
    · rw [alHas_cons_ne k₀ v₀ tl k hk]
      exact ih h₂

theorem keysUnique_append_left (xs ys : ConfigMap)
    (h : keysUnique (xs ++ ys) = true) : keysUnique xs = true := by
  induction xs with
  | nil => rfl
  | cons hd tl ih =>
    obtain ⟨k₀, v₀⟩ := hd
    rw [List.cons_append, keysUnique, Bool.and_eq_true] at h
    obtain ⟨h₁, h₂⟩ := h
    rw [Bool.not_eq_true', alHas_append] at h₁
    rw [keysUnique, Bool.and_eq_true]
    refine ⟨?_, ih h₂⟩
    rw [Bool.not_eq_true']
    rcases Bool.or_eq_false_iff.mp h₁ with ⟨ha, -⟩
    exact ha

/-- Reading the block of top-level scalar lines accumulates exactly those
entries, in order. -/
theorem parse_scalar_block (s : List (String × Value)) :
    ∀ (ls : List (List Char)) (acc : ConfigMap),
    (∀ kv ∈ s, validKey kv.1.data = true ∧ scalarClean kv.2 = true) →
    keysUnique (acc ++ s) = true →
    parseTomlLines (s.map lineOf ++ ls) none acc
      = parseTomlLines ls none (acc ++ s) := by
  match s with
  | [] => intro ls acc _ _; simp
  | (k, v) :: s' =>
    intro ls acc hgood hU
    obtain ⟨hk, hv⟩ := hgood (k, v) (by simp)
    have hfresh : alHas acc k = false :=
      keysUnique_append_not_has acc s' k v hU
    rw [List.map_cons, List.cons_append,
      parse_kv_line k v _ none acc hk hv]
    show (if alHas acc k then none
      else parseTomlLines (s'.map lineOf ++ ls) none (acc ++ [(k, v)])) = _
    rw [if_neg (by simp [hfresh])]
    have hU' : keysUnique ((acc ++ [(k, v)]) ++ s') = true := by
      rw [List.append_assoc, List.singleton_append]
      exact hU
    rw [parse_scalar_block s' ls (acc ++ [(k, v)])
      (fun kv hkv => hgood kv (by simp [hkv])) hU']
    rw [List.append_assoc, List.singleton_append]

/-- Reading the lines inside a section appends exactly those entries to the
section's dict, which sits at the end of the accumulator. -/
theorem parse_inner_block (d' : List (String × Value)) :
    ∀ (ls : List (List Char)) (acc₀ d : ConfigMap) (sec : String),
    (∀ kv ∈ d', validKey kv.1.data = true ∧ scalarClean kv.2 = true) →
    keysUnique (d ++ d') = true →
    alHas acc₀ sec = false →
    parseTomlLines (d'.map lineOf ++ ls) (some sec)
        (acc₀ ++ [(sec, Value.vDict d)])
      = parseTomlLines ls (some sec)
        (acc₀ ++ [(sec, Value.vDict (d ++ d'))]) := by
  match d' with
  | [] => intro ls acc₀ d sec _ _ _; simp
  | (k, v) :: d₂ =>
    intro ls acc₀ d sec hgood hU hsec
    obtain ⟨hk, hv⟩ := hgood (k, v) (by simp)
    have hfreshd : alHas d k = false :=
      keysUnique_append_not_has d d₂ k v hU
    rw [List.map_cons, List.cons_append,
      parse_kv_line k v _ (some sec) _ hk hv]
    show (match alGet (acc₀ ++ [(sec, Value.vDict d)]) sec with
      | some (Value.vDict d₀) =>
        if alHas d₀ k then none
        else parseTomlLines (d₂.map lineOf ++ ls) (some sec)
          (alSet (acc₀ ++ [(sec, Value.vDict d)]) sec
            (Value.vDict (d₀ ++ [(k, v)])))
      | _ => none) = _
    rw [alGet_append_last acc₀ sec _ hsec]
    show (if alHas d k then none
      else parseTomlLines (d₂.map lineOf ++ ls) (some sec)
        (alSet (acc₀ ++ [(sec, Value.vDict d)]) sec
          (Value.vDict (d ++ [(k, v)])))) = _
    rw [if_neg (by simp [hfreshd]),
      alSet_append_last acc₀ sec _ _ hsec]
    have hU' : keysUnique ((d ++ [(k, v)]) ++ d₂) = true := by
      rw [List.append_assoc, List.singleton_append]
      exact hU
    rw [parse_inner_block d₂ ls acc₀ (d ++ [(k, v)]) sec
      (fun kv hkv => hgood kv (by simp [hkv])) hU' hsec]
    rw [List.append_assoc, List.singleton_append]

/-- Reading the section blocks appends each section, with exactly its
entries, to the accumulator, and the trailing blank line ends the file. -/
theorem parse_sections (t : List (String × Value)) :
    ∀ (cur : Option String) (acc : ConfigMap),
    (∀ kv ∈ t, isDictVal kv.2 = true ∧ goodEntry kv = true) →
    keysUnique (acc ++ t) = true →
    parseTomlLines (t.flatMap chunkOf ++ [[]]) cur acc
      = some (acc ++ t) := by
  match t with
  | [] =>
    intro cur acc _ _
    rw [List.flatMap_nil, List.nil_append, parse_blank_step]
    simp [parseTomlLines]
  | (k, v) :: t' =>
    intro cur acc hgood hU
    obtain ⟨hdict, hgent⟩ := hgood (k, v) (by simp)
    cases v with
    | vDict d =>
      have hge : validKey k.data = true ∧ keysUnique d = true ∧
          d.all (fun kv => validKey kv.1.data && scalarClean kv.2) = true := by
        have : goodEntry (k, Value.vDict d)
            = (validKey k.data && keysUnique d &&
              d.all (fun kv => validKey kv.1.data && scalarClean kv.2)) := rfl
        rw [this, Bool.and_eq_true, Bool.and_eq_true] at hgent
        exact ⟨hgent.1.1, hgent.1.2, hgent.2⟩
      have hfresh : alHas acc k = false :=
        keysUnique_append_not_has acc t' k (Value.vDict d) hU
      rw [List.flatMap_cons, List.append_assoc,
        show chunkOf (k, Value.vDict d)
          = [] :: (('[' :: k.data) ++ [']']) :: d.map lineOf from rfl]
      show parseTomlLines
          ([] :: (('[' :: k.data) ++ [']']) ::
            (d.map lineOf ++ (t'.flatMap chunkOf ++ [[]]))) cur acc
        = some (acc ++ (k, Value.vDict d) :: t')
      rw [parse_blank_step, parse_header_step k _ cur acc hge.1 hfresh]
      have hdgood : ∀ kv ∈ d,
          validKey kv.1.data = true ∧ scalarClean kv.2 = true := by
        intro kv hkv
        have := List.all_eq_true.mp hge.2.2 kv hkv
        rw [Bool.and_eq_true] at this
        exact this
      rw [parse_inner_block d _ acc [] k hdgood (by simpa using hge.2.1)
        hfresh]
      have hU' : keysUnique ((acc ++ [(k, Value.vDict d)]) ++ t') = true := by
        rw [List.append_assoc, List.singleton_append]
        exact hU
      rw [show ([] : ConfigMap) ++ d = d from rfl,
        parse_sections t' (some k) (acc ++ [(k, Value.vDict d)])
          (fun kv hkv => hgood kv (by simp [hkv])) hU']
      rw [List.append_assoc, List.singleton_append]
    | vStr s => simp [isDictVal] at hdict
    | vBool b => simp [isDictVal] at hdict
    | vInt n => simp [isDictVal] at hdict

theorem save_scalar_lines (m : ConfigMap) :
    (m.filterMap (fun kv =>
      match kv.2 with
      | Value.vDict _ => none
      | v => some (kv.1 ++ " = " ++ _toml_value v)))
    = (m.filter (fun kv => !isDictVal kv.2)).map
        (fun kv => kv.1 ++ " = " ++ _toml_value kv.2) := by
  induction m with
  | nil => rfl
  | cons kv m' ih =>
    obtain ⟨k, v⟩ := kv
    cases v <;> simp [List.filterMap_cons, List.filter_cons, isDictVal, ih]

theorem save_section_lines (m : ConfigMap) :
    (m.flatMap (fun kv =>
      match kv.2 with
      | Value.vDict d =>
        ("\n[" ++ kv.1 ++ "]") ::
          d.map (fun kv₂ => kv₂.1 ++ " = " ++ _toml_value kv₂.2)
      | _ => []))
    = (m.filter (fun kv => isDictVal kv.2)).flatMap (fun kv =>
      match kv.2 with
      | Value.vDict d =>
        ("\n[" ++ kv.1 ++ "]") ::
          d.map (fun kv₂ => kv₂.1 ++ " = " ++ _toml_value kv₂.2)
      | _ => []) := by
  induction m with
  | nil => rfl
  | cons kv m' ih =>
    obtain ⟨k, v⟩ := kv
    cases v <;> simp [List.flatMap_cons, List.filter_cons, isDictVal, ih]

theorem save_config_lines_decomp (m : ConfigMap) :
    save_config_lines m
      = (m.filter (fun kv => !isDictVal kv.2)).map
          (fun kv => kv.1 ++ " = " ++ _toml_value kv.2)
        ++ (m.filter (fun kv => isDictVal kv.2)).flatMap (fun kv =>
          match kv.2 with
          | Value.vDict d =>
            ("\n[" ++ kv.1 ++ "]") ::
              d.map (fun kv₂ => kv₂.1 ++ " = " ++ _toml_value kv₂.2)
          | _ => []) := by
  rw [save_config_lines, save_scalar_lines, save_section_lines]

theorem scalar_lines_split (S : List (String × Value))
    (hgood : ∀ kv ∈ S, validKey kv.1.data = true ∧ scalarClean kv.2 = true) :
    ((S.map (fun kv => kv.1 ++ " = " ++ _toml_value kv.2)).flatMap
      (fun str => splitChar '\n' str.data))
    = S.map lineOf := by
  induction S with
  | nil => rfl
  | cons kv S' ih =>
    obtain ⟨k, v⟩ := kv
    obtain ⟨hk, hv⟩ := hgood (k, v) (by simp)
    obtain ⟨-, -, -, -, -, -, hnl⟩ := lineOf_facts k v hk hv
    rw [List.map_cons, List.flatMap_cons,
      show splitChar '\n' (k ++ " = " ++ _toml_value v).data
        = [lineOf (k, v)] from splitChar_no_sep '\n' _ hnl,
      ih (fun kv hkv => hgood kv (by simp [hkv]))]
    rfl

theorem header_data (k : String) :
    ("\n[" ++ k ++ "]").data = '\n' :: (('[' :: k.data) ++ [']']) := by
  rw [String.data_append, String.data_append]
  simp

theorem section_chunks_split (T : List (String × Value))
    (hgood : ∀ kv ∈ T, isDictVal kv.2 = true ∧ goodEntry kv = true) :
    ((T.flatMap (fun kv =>
      match kv.2 with
      | Value.vDict d =>
        ("\n[" ++ kv.1 ++ "]") ::
          d.map (fun kv₂ => kv₂.1 ++ " = " ++ _toml_value kv₂.2)
      | _ => [])).flatMap (fun str => splitChar '\n' str.data))
    = T.flatMap chunkOf := by
  induction T with
  | nil => rfl
  | cons kv T' ih =>
    obtain ⟨k, v⟩ := kv
    obtain ⟨hdict, hgent⟩ := hgood (k, v) (by simp)
    cases v with
    | vDict d =>
      have hge : validKey k.data = true ∧ keysUnique d = true ∧
          d.all (fun kv => validKey kv.1.data && scalarClean kv.2) = true := by
        have hh : goodEntry (k, Value.vDict d)
            = (validKey k.data && keysUnique d &&
              d.all (fun kv => validKey kv.1.data && scalarClean kv.2)) := rfl
        rw [hh, Bool.and_eq_true, Bool.and_eq_true] at hgent
        exact ⟨hgent.1.1, hgent.1.2, hgent.2⟩
      have hdgood : ∀ kv₂ ∈ d,
          validKey kv₂.1.data = true ∧ scalarClean kv₂.2 = true := by
        intro kv₂ hkv₂
        have := List.all_eq_true.mp hge.2.2 kv₂ hkv₂
        rw [Bool.and_eq_true] at this
        exact this
      rw [List.flatMap_cons, List.flatMap_append,
        ih (fun kv hkv => hgood kv (by simp [hkv]))]
      congr 1
      show splitChar '\n' ("\n[" ++ k ++ "]").data
          ++ ((d.map (fun kv₂ => kv₂.1 ++ " = " ++ _toml_value kv₂.2)).flatMap
            (fun str => splitChar '\n' str.data))
        = chunkOf (k, Value.vDict d)
      rw [header_data, splitChar, if_pos rfl,
        splitChar_no_sep '\n' (('[' :: k.data) ++ [']']) ?_,
        scalar_lines_split d hdgood]
      · rfl
      · intro c hc
        have hc' : c = '[' ∨ c ∈ k.data ∨ c = ']' := by simpa using hc
        rcases hc' with rfl | hck | rfl
        · decide
        · exact validKeyChar_ne c (validKey_mem k.data hge.1 c hck) '\n'
            (by decide)
        · decide
    | vStr s => simp [isDictVal] at hdict
    | vBool b => simp [isDictVal] at hdict
    | vInt n => simp [isDictVal] at hdict

theorem save_config_lines_ne_nil (m : ConfigMap) (hne : m ≠ []) :
    save_config_lines m ≠ [] := by
  match m with
  | [] => exact absurd rfl hne
  | (k, v) :: m' =>
    intro h
    rw [save_config_lines] at h
    rcases List.append_eq_nil.mp h with ⟨h₁, h₂⟩
    cases v with
    | vDict d =>
      rw [List.flatMap_cons] at h₂
      rcases List.append_eq_nil.mp h₂ with ⟨h₃, -⟩
      simp at h₃
    | vStr s => rw [List.filterMap_cons] at h₁; simp at h₁
    | vBool b => rw [List.filterMap_cons] at h₁; simp at h₁
    | vInt n => rw [List.filterMap_cons] at h₁; simp at h₁

theorem goodEntry_scalar (k : String) (v : Value)
    (hnd : isDictVal v = false) (hg : goodEntry (k, v) = true) :
    validKey k.data = true ∧ scalarClean v = true := by
  cases v with
  | vDict d => simp [isDictVal] at hnd
  | vStr s =>
    rw [show goodEntry (k, Value.vStr s)
      = (validKey k.data && scalarClean (Value.vStr s)) from rfl,
      Bool.and_eq_true] at hg
    exact hg
  | vBool b =>
    rw [show goodEntry (k, Value.vBool b)
      = (validKey k.data && scalarClean (Value.vBool b)) from rfl,
      Bool.and_eq_true] at hg
    exact hg
  | vInt n =>
    rw [show goodEntry (k, Value.vInt n)
      = (validKey k.data && scalarClean (Value.vInt n)) from rfl,
      Bool.and_eq_true] at hg
    exact hg

/-- The whole file, exploded into the line list the TOML reader sees. -/
theorem exploded_lines (m : ConfigMap) (hgood : m.all goodEntry = true)
    (hne : m ≠ []) :
    splitChar '\n' (save_config_text m).data
      = (m.filter (fun kv => !isDictVal kv.2)).map lineOf
        ++ ((m.filter (fun kv => isDictVal kv.2)).flatMap chunkOf
          ++ [[]]) := by
  rw [save_config_text, splitChar_joinNl _ (save_config_lines_ne_nil m hne),
    save_config_lines_decomp, List.flatMap_append,
    scalar_lines_split _ ?_, section_chunks_split _ ?_,
    List.append_assoc]
  · intro kv hkv
    refine ⟨?_, List.all_eq_true.mp hgood kv (List.mem_of_mem_filter hkv)⟩
    simpa using List.of_mem_filter hkv
  · intro kv hkv
    exact goodEntry_scalar kv.1 kv.2
      (by simpa using List.of_mem_filter hkv)
      (List.all_eq_true.mp hgood kv (List.mem_of_mem_filter hkv))

theorem alHas_filter_false (m : ConfigMap) (p : String × Value → Bool)
    (k : String) (h : alHas m k = false) :
    alHas (m.filter p) k = false := by
  induction m with
  | nil => rfl
  | cons hd tl ih =>
    obtain ⟨k₀, v₀⟩ := hd
    by_cases hk : k₀ = k
    · subst hk
      rw [alHas, alGet, if_pos rfl] at h
      simp at h
    · rw [alHas_cons_ne _ _ _ _ hk] at h
      rw [List.filter_cons]
      by_cases hp : p (k₀, v₀) = true
      · rw [if_pos hp, alHas_cons_ne _ _ _ _ hk]
        exact ih h
      · rw [if_neg hp]
        exact ih h

theorem keysUnique_middle (xs ys : ConfigMap) (k : String) (v : Value)
    (hU : keysUnique (xs ++ ys) = true) (hx : alHas xs k = false)
    (hy : alHas ys k = false) :
    keysUnique (xs ++ (k, v) :: ys) = true := by
  induction xs with
  | nil =>
    rw [List.nil_append, keysUnique, Bool.and_eq_true]
    refine ⟨?_, by simpa using hU⟩
    rw [Bool.not_eq_true']
    exact hy
  | cons hd tl ih =>
    obtain ⟨k₀, v₀⟩ := hd
    rw [List.cons_append, keysUnique, Bool.and_eq_true] at hU
    obtain ⟨h₁, h₂⟩ := hU
    have hx' : alHas tl k = false ∧ k₀ ≠ k := by
      by_cases hk : k₀ = k
      · subst hk
        rw [alHas, alGet, if_pos rfl] at hx
        simp at hx
      · rw [alHas_cons_ne _ _ _ _ hk] at hx
        exact ⟨hx, hk⟩
    rw [List.cons_append, keysUnique, Bool.and_eq_true]
    refine ⟨?_, ih h₂ hx'.1⟩
    rw [Bool.not_eq_true'] at h₁ ⊢
    rw [alHas_append] at h₁ ⊢
    rcases Bool.or_eq_false_iff.mp h₁ with ⟨ha, hb⟩
    rw [ha, Bool.false_or,
      alHas_cons_ne k v ys k₀ (fun he => hx'.2 he.symm)]
    exact hb

theorem keysUnique_partition (m : ConfigMap) (h : keysUnique m = true) :
    keysUnique (m.filter (fun kv => !isDictVal kv.2)
      ++ m.filter (fun kv => isDictVal kv.2)) = true := by
  induction m with
  | nil => rfl
  | cons hd tl ih =>
    obtain ⟨k, v⟩ := hd
    rw [keysUnique, Bool.and_eq_true] at h
    obtain ⟨h₁, h₂⟩ := h
    rw [Bool.not_eq_true'] at h₁
    by_cases hp : isDictVal v = true
    · rw [List.filter_cons, List.filter_cons]
      rw [if_neg (by simp [hp]), if_pos (by simpa using hp)]
      exact keysUnique_middle _ _ k v (ih h₂)
        (alHas_filter_false tl _ k h₁) (alHas_filter_false tl _ k h₁)
    · rw [List.filter_cons, List.filter_cons]
      rw [if_pos (by simp [hp]), if_neg (by simpa using hp)]
      rw [List.cons_append, keysUnique, Bool.and_eq_true]
      refine ⟨?_, ih h₂⟩
      rw [Bool.not_eq_true', alHas_append,
        alHas_filter_false tl _ k h₁, alHas_filter_false tl _ k h₁]
      rfl

theorem goodMap_reorder (m : ConfigMap) (hm : goodMap m = true) :
    goodMap (reorder_config m) = true := by
  rw [goodMap, Bool.and_eq_true] at hm
  obtain ⟨hU, hall⟩ := hm
  rw [goodMap, Bool.and_eq_true]
  refine ⟨keysUnique_partition m hU, ?_⟩
  rw [List.all_eq_true] at hall ⊢
  intro kv hkv
  rcases List.mem_append.mp hkv with hkv' | hkv'
  · exact hall kv (List.mem_of_mem_filter hkv')
  · exact hall kv (List.mem_of_mem_filter hkv')

theorem filter_reorder_scalars (m : ConfigMap) :
    (reorder_config m).filter (fun kv => !isDictVal kv.2)
      = m.filter (fun kv => !isDictVal kv.2) := by
  rw [reorder_config, List.filter_append]
  rw [List.filter_eq_self.mpr
    (fun kv hkv => by simpa using List.of_mem_filter hkv)]
  rw [show (m.filter (fun kv => isDictVal kv.2)).filter
        (fun kv => !isDictVal kv.2) = [] from ?_]
  · simp
  · rw [List.filter_eq_nil_iff]
    intro kv hkv
    have := List.of_mem_filter hkv
    simp at this ⊢
    simpa using this

theorem filter_reorder_sections (m : ConfigMap) :
    (reorder_config m).filter (fun kv => isDictVal kv.2)
      = m.filter (fun kv => isDictVal kv.2) := by
  rw [reorder_config, List.filter_append]
  rw [show (m.filter (fun kv => !isDictVal kv.2)).filter
        (fun kv => isDictVal kv.2) = [] from ?_]
  · rw [List.nil_append]
    rw [List.filter_eq_self.mpr
      (fun kv hkv => by simpa using List.of_mem_filter hkv)]
  · rw [List.filter_eq_nil_iff]
    intro kv hkv
    have := List.of_mem_filter hkv
    simp at this ⊢
    simpa using this

theorem reorder_idem (m : ConfigMap) :
    reorder_config (reorder_config m) = reorder_config m := by
  show (reorder_config m).filter (fun kv => !isDictVal kv.2)
      ++ (reorder_config m).filter (fun kv => isDictVal kv.2)
    = reorder_config m
  rw [filter_reorder_scalars, filter_reorder_sections]
  rfl

/-- Main round-trip lemma: saving a good map and re-loading it yields the
map back in canonical scalars-then-sections order. -/
theorem load_save_good (m : ConfigMap) (hm : goodMap m = true) :
    tomllib_load (save_config_text m) = some (reorder_config m) := by
  have hm' := hm
  rw [goodMap, Bool.and_eq_true] at hm'
  obtain ⟨hU, hall⟩ := hm'
  by_cases hne : m = []
  · subst hne; rfl
  · rw [tomllib_load, exploded_lines m hall hne]
    have hUp : keysUnique ((m.filter (fun kv => !isDictVal kv.2))
        ++ (m.filter (fun kv => isDictVal kv.2))) = true :=
      keysUnique_partition m hU
    rw [parse_scalar_block (m.filter (fun kv => !isDictVal kv.2)) _ []
      (fun kv hkv => goodEntry_scalar kv.1 kv.2
        (by simpa using List.of_mem_filter hkv)
        (List.all_eq_true.mp hall kv (List.mem_of_mem_filter hkv)))
      (by simpa using keysUnique_append_left _ _ hUp)]
    rw [List.nil_append]
    rw [parse_sections (m.filter (fun kv => isDictVal kv.2)) none
      (m.filter (fun kv => !isDictVal kv.2))
      (fun kv hkv => ⟨by simpa using List.of_mem_filter hkv,
        List.all_eq_true.mp hall kv (List.mem_of_mem_filter hkv)⟩)
      hUp]
    rfl

theorem allowEntry_good (kv : String × Value) (h : allowEntry kv = true) :
    goodEntry kv = true := by
  obtain ⟨k, v⟩ := kv
  cases v with
  | vDict d =>
    rw [show allowEntry (k, Value.vDict d)
        = (decide (k ∈ (["session", "aliases", "feedback"] : List String)) &&
          keysUnique d &&
          d.all (fun kv =>
            decide (kv.1 ∈ sectionInnerKeys k) && scalarClean kv.2))
      from rfl, Bool.and_eq_true, Bool.and_eq_true] at h
    obtain ⟨⟨hmem, hU⟩, hall⟩ := h
    have hkmem : k = "session" ∨ k = "aliases" ∨ k = "feedback" := by
      have := of_decide_eq_true hmem
      simpa using this
    have hkvalid : validKey k.data = true := by
      rcases hkmem with rfl | rfl | rfl <;> decide
    have hinner : ∀ kv₂ ∈ d,
        (validKey kv₂.1.data && scalarClean kv₂.2) = true := by
      intro kv₂ hkv₂
      have hx := List.all_eq_true.mp hall kv₂ hkv₂
      rw [Bool.and_eq_true] at hx
      obtain ⟨hik, hc⟩ := hx
      rw [Bool.and_eq_true]
      refine ⟨?_, hc⟩
      have hikm := of_decide_eq_true hik
      rcases hkmem with rfl | rfl | rfl
      · simp [sectionInnerKeys] at hikm
        rcases hikm with hik' | hik' | hik' <;> (rw [hik']; decide)
      · simp [sectionInnerKeys] at hikm
        rw [hikm]; decide
      · simp [sectionInnerKeys] at hikm
        rw [hikm]; decide
    rw [show goodEntry (k, Value.vDict d)
        = (validKey k.data && keysUnique d &&
          d.all (fun kv => validKey kv.1.data && scalarClean kv.2))
      from rfl, Bool.and_eq_true, Bool.and_eq_true]
    exact ⟨⟨hkvalid, hU⟩, List.all_eq_true.mpr hinner⟩
  | vStr s =>
    rw [show allowEntry (k, Value.vStr s)
        = (decide (k ∈ (["model", "quiet"] : List String)) &&
          scalarClean (Value.vStr s)) from rfl, Bool.and_eq_true] at h
    obtain ⟨hmem, hc⟩ := h
    have hk : k = "model" ∨ k = "quiet" := by
      have := of_decide_eq_true hmem
      simpa using this
    rw [show goodEntry (k, Value.vStr s)
        = (validKey k.data && scalarClean (Value.vStr s)) from rfl,
      Bool.and_eq_true]
    exact ⟨by rcases hk with rfl | rfl <;> decide, hc⟩
  | vBool b =>
    rw [show allowEntry (k, Value.vBool b)
        = (decide (k ∈ (["model", "quiet"] : List String)) &&
          scalarClean (Value.vBool b)) from rfl, Bool.and_eq_true] at h
    obtain ⟨hmem, hc⟩ := h
    have hk : k = "model" ∨ k = "quiet" := by
      have := of_decide_eq_true hmem
      simpa using this
    rw [show goodEntry (k, Value.vBool b)
        = (validKey k.data && scalarClean (Value.vBool b)) from rfl,
      Bool.and_eq_true]
    exact ⟨by rcases hk with rfl | rfl <;> decide, hc⟩
  | vInt n =>
    rw [show allowEntry (k, Value.vInt n)
        = (decide (k ∈ (["model", "quiet"] : List String)) &&
          scalarClean (Value.vInt n)) from rfl, Bool.and_eq_true] at h
    obtain ⟨hmem, hc⟩ := h
    have hk : k = "model" ∨ k = "quiet" := by
      have := of_decide_eq_true hmem
      simpa using this
    rw [show goodEntry (k, Value.vInt n)
        = (validKey k.data && scalarClean (Value.vInt n)) from rfl,
      Bool.and_eq_true]
    exact ⟨by rcases hk with rfl | rfl <;> decide, hc⟩

theorem allowlisted_goodMap (m : ConfigMap)
    (h : allowlisted_clean m = true) : goodMap m = true := by
  rw [allowlisted_clean, Bool.and_eq_true] at h
  rw [goodMap, Bool.and_eq_true]
  refine ⟨h.1, ?_⟩
  rw [List.all_eq_true]
  intro kv hkv
  exact allowEntry_good kv (List.all_eq_true.mp h.2 kv hkv)

/-- C3 (amended): for every config map whose keys are drawn only from the
allow-list, nested at most one section level, with unique keys and string
values free of backslashes, double quotes and control characters, one
save/load round trip returns the map up to the canonical
scalars-before-sections reordering, and the second round trip is the
identity — re-loading after re-saving equals the first re-load.  (Without
the clean-string restriction the property fails: see the backslash
counterexample.) -/
theorem save_load_roundtrip (m : ConfigMap)
    (hm : allowlisted_clean m = true) :
    load_config (some (save_config_text m)) = reorder_config m ∧
    load_config (some (save_config_text
        (load_config (some (save_config_text m)))))
      = load_config (some (save_config_text m)) := by
  have hg := allowlisted_goodMap m hm
  have h₁ := load_save_good m hg
  have hl₁ : load_config (some (save_config_text m)) = reorder_config m := by
    simp [load_config, h₁]
  have hg₂ := goodMap_reorder m hg
  have h₂ := load_save_good (reorder_config m) hg₂
  rw [reorder_idem] at h₂
  refine ⟨hl₁, ?_⟩
  rw [hl₁]
  simp [load_config, h₂]

/-- Witness for C3 (amended): a concrete allow-listed map with a scalar, a
boolean and an integer inside a section survives the double round trip. -/
theorem save_load_roundtrip_witness :
    allowlisted_clean
      [("model", Value.vStr "gpt-5"),
        ("session", Value.vDict
          [("enabled", Value.vBool true), ("size", Value.vInt 50)])]
      = true ∧
    load_config (some (save_config_text
      [("model", Value.vStr "gpt-5"),
        ("session", Value.vDict
          [("enabled", Value.vBool true), ("size", Value.vInt 50)])]))
      = [("model", Value.vStr "gpt-5"),
        ("session", Value.vDict
          [("enabled", Value.vBool true), ("size", Value.vInt 50)])] ∧
    load_config (some (save_config_text
      (load_config (some (save_config_text
        [("model", Value.vStr "gpt-5"),
          ("session", Value.vDict
            [("enabled", Value.vBool true), ("size", Value.vInt 50)])])))))
      = load_config (some (save_config_text
        [("model", Value.vStr "gpt-5"),
          ("session", Value.vDict
            [("enabled", Value.vBool true), ("size", Value.vInt 50)])])) :=
  ⟨rfl,
    (save_load_roundtrip
      [("model", Value.vStr "gpt-5"),
        ("session", Value.vDict
          [("enabled", Value.vBool true), ("size", Value.vInt 50)])]
      rfl).1,
    (save_load_roundtrip
      [("model", Value.vStr "gpt-5"),
        ("session", Value.vDict
          [("enabled", Value.vBool true), ("size", Value.vInt 50)])]
      rfl).2⟩

end Shai
